import Mathlib

/-!
Verification of the `osglob` module (`src/osglob.py`), a POSIX Python 2 file
of glob-based file operations.  Python strings are modelled as lists of
characters (`PyStr`); the filesystem is a finite tree of entries; machine
paths are resolved by the lexical rules of `posixpath` (`os.sep` is the
slash, `os.pardir` is the double dot, `os.getcwd()` is an absolute
normalized path).  Fallible operations return `Except`/`Option`; the
unbounded `while` loop of `removedirs` and the self-recursion of
`Content.remove` take a fuel argument (`none` = fuel exhausted; the source
loops terminate on finite trees, fuel only makes the recursion structural).
-/

set_option maxRecDepth 8000

namespace osglob

/-- A Python string, modelled as its list of characters. -/
abbrev PyStr := List Char

/-- Shorthand turning a Lean string literal into the modelled Python string. -/
def pys (s : String) : PyStr := s.data

/-- Python `s.split('/')` (used by `posixpath.normpath`): splitting the empty
string gives `[""]`, every slash opens a new piece. -/
def splitOnSlash : PyStr → List PyStr
  | [] => [[]]
  | c :: rest =>
    if c = '/' then [] :: splitOnSlash rest
    else
      match splitOnSlash rest with
      | [] => [[c]]
      | p :: ps => (c :: p) :: ps

/-- Python `'/'.join(pieces)`. -/
def intercalateSlash : List PyStr → PyStr
  | [] => []
  | [x] => x
  | x :: xs => x ++ '/' :: intercalateSlash xs

/-- Python `s.rstrip('/')`. -/
def dropTrailingSlashes (p : PyStr) : PyStr :=
  (p.reverse.dropWhile (fun c => c = '/')).reverse

/-- Python `p[:i], p[i:]` with `i = p.rfind('/') + 1`: the raw split of a path
at its last slash, the head keeping the slash (`posixpath.split` before the
head is stripped of trailing slashes). -/
def pySplitRaw : PyStr → PyStr × PyStr
  | [] => ([], [])
  | c :: rest =>
    if rest.contains '/' then
      let p := pySplitRaw rest
      (c :: p.1, p.2)
    else if c = '/' then ([c], rest)
    else ([], c :: rest)

/-- `posixpath.dirname`: everything before the last slash, with trailing
slashes stripped unless the head consists only of slashes. -/
def pyDirname (p : PyStr) : PyStr :=
  let h := (pySplitRaw p).1
  if h ≠ [] ∧ ¬ h.all (fun c => c = '/') then dropTrailingSlashes h else h

/-- `posixpath.basename`: everything after the last slash. -/
def pyBasename (p : PyStr) : PyStr :=
  (pySplitRaw p).2

/-- `posixpath.join` for two operands: an absolute second operand wins; a
slash is inserted unless the first operand is empty or already ends in one. -/
def pyJoin (a b : PyStr) : PyStr :=
  if b.head? = some '/' then b
  else if a = [] ∨ a.getLast? = some '/' then a ++ b
  else a ++ '/' :: b

/-- Split a string at its last dot: `some (pre, ext)` with the string equal to
`pre ++ ext` and `ext` beginning with the last dot. -/
def splitLastDot : PyStr → Option (PyStr × PyStr)
  | [] => none
  | c :: rest =>
    match splitLastDot rest with
    | some (pre, e) => some (c :: pre, e)
    | none => if c = '.' then some ([], '.' :: rest) else none

/-- `posixpath.splitext`: split off the extension at the last dot of the
final path component, except when every character of that component before
the dot is itself a dot (so `.bashrc` has no extension). -/
def pySplitext (p : PyStr) : PyStr × PyStr :=
  let h := (pySplitRaw p).1
  let t := (pySplitRaw p).2
  match splitLastDot t with
  | none => (p, [])
  | some (pre, e) => if ¬ pre.all (fun c => c = '.') then (h ++ pre, e) else (p, [])

/-- One step of `posixpath.normpath`'s component loop: empty and dot
components are dropped, a double dot pops the previous component except at
the start of a relative path or after another double dot. -/
def normKeep (islashes : Nat) (acc : List PyStr) (comp : PyStr) : List PyStr :=
  if comp = [] ∨ comp = ['.'] then acc
  else if comp ≠ ['.', '.'] ∨ (islashes = 0 ∧ acc = []) ∨ (acc ≠ [] ∧ acc.getLast? = some ['.', '.']) then
    acc ++ [comp]
  else if acc ≠ [] then acc.dropLast
  else acc

/-- `posixpath.normpath`. -/
def pyNormpath (p : PyStr) : PyStr :=
  if p = [] then ['.']
  else
    let islashes : Nat :=
      if p.head? = some '/' then
        if p.take 2 = ['/', '/'] ∧ p.take 3 ≠ ['/', '/', '/'] then 2 else 1
      else 0
    let comps := (splitOnSlash p).foldl (normKeep islashes) []
    let res := List.replicate islashes '/' ++ intercalateSlash comps
    if res = [] then ['.'] else res

/-- `posixpath.isabs`. -/
def pyIsAbs (p : PyStr) : Bool := p.head? = some '/'

/-- Glob magic characters, as in Python's `glob.has_magic`. -/
def hasMagic (p : PyStr) : Bool :=
  p.contains '*' || p.contains '?' || p.contains '['

/-- The resolved referent of a symbolic link entry: a regular file, a
directory, or a dangling link. -/
inductive SymTarget : Type where
  | toFile : SymTarget
  | toDir : SymTarget
  | broken : SymTarget
deriving Repr, DecidableEq

/-- A filesystem entry.  A directory is a spine of named children
(`dnil`/`dcons`, in `os.listdir` order); a regular file carries whether
deleting it succeeds (false models a permission error that survives the
read-only-bit retry); a symlink carries the kind of its resolved target. -/
inductive Node : Type where
  | file (deletable : Bool) : Node
  | symlink (target : SymTarget) : Node
  | dnil : Node
  | dcons (name : PyStr) (child : Node) (rest : Node) : Node
deriving Repr, DecidableEq

/-- A directory entry reachable without following a symlink. -/
def isRealDir : Node → Bool
  | Node.dnil => true
  | Node.dcons _ _ _ => true
  | _ => false

/-- `os.path.isdir` on a resolved entry (follows the final symlink). -/
def isDirNode : Node → Bool
  | Node.dnil => true
  | Node.dcons _ _ _ => true
  | Node.symlink SymTarget.toDir => true
  | _ => false

/-- `os.path.isfile` on a resolved entry (follows the final symlink). -/
def isFileNode : Node → Bool
  | Node.file _ => true
  | Node.symlink SymTarget.toFile => true
  | _ => false

/-- Whether `os.remove` succeeds on this entry (symlinks are unlinked as
such; directories make it fail). -/
def leafRemovable : Node → Bool
  | Node.file d => d
  | Node.symlink _ => true
  | _ => false

/-- Child lookup by name in a directory spine. -/
def lookupChild : Node → PyStr → Option Node
  | Node.dcons nm c r, s => if nm = s then some c else lookupChild r s
  | _, _ => none

/-- The listing (`os.listdir`) of a directory spine, in spine order. -/
def childNames : Node → List PyStr
  | Node.dcons nm _ r => nm :: childNames r
  | _ => []

/-- Resolve a component path from a node.  Intermediate components descend
only through real directories (paths through symlinked directories are
outside the model). -/
def resolve : Node → List PyStr → Option Node
  | n, [] => some n
  | n, s :: rest =>
    match lookupChild n s with
    | some c => resolve c rest
    | none => none

/-- Replace the node at a component path, leaving the tree unchanged when the
path does not resolve. -/
def setNodeAt : Node → List PyStr → Node → Node
  | _, [], m => m
  | Node.dcons nm c r, s :: rest, m =>
    if nm = s then Node.dcons nm (setNodeAt c rest m) r
    else Node.dcons nm c (setNodeAt r (s :: rest) m)
  | n, _ :: _, _ => n

/-- The filesystem state: the root directory tree and the current working
directory of the process as absolute path components. -/
structure Fs : Type where
  root : Node
  cwd : List PyStr
deriving Repr, DecidableEq

/-- Render absolute path components as the path string (`getcwd` style: a
leading slash, components joined by slashes, no trailing slash). -/
def renderAbs (comps : List PyStr) : PyStr :=
  '/' :: intercalateSlash comps

/-- `os.getcwd()`. -/
def cwdString (fs : Fs) : PyStr := renderAbs fs.cwd

/-- `posixpath.abspath`: join onto the working directory when relative, then
normalize. -/
def pyAbspath (fs : Fs) (p : PyStr) : PyStr :=
  if pyIsAbs p then pyNormpath p else pyNormpath (pyJoin (cwdString fs) p)

/-- The component list a path string resolves through: the absolutized,
normalized string split at slashes (lexical resolution; accurate whenever no
intermediate component is a symlink). -/
def strToComps (fs : Fs) (p : PyStr) : List PyStr :=
  (splitOnSlash (pyAbspath fs p)).filter (fun c => c ≠ [])

/-- Resolve a path string against the filesystem (the empty string names
nothing, as in the os module). -/
def resolveStr (fs : Fs) (p : PyStr) : Option Node :=
  if p = [] then none else resolve fs.root (strToComps fs p)

/-- `os.path.isdir` on a path string. -/
def isdirStr (fs : Fs) (p : PyStr) : Bool :=
  match resolveStr fs p with
  | some n => isDirNode n
  | none => false

/-- `os.path.isfile` on a path string. -/
def isfileStr (fs : Fs) (p : PyStr) : Bool :=
  match resolveStr fs p with
  | some n => isFileNode n
  | none => false

/-- `os.path.lexists` on a path string. -/
def lexistsStr (fs : Fs) (p : PyStr) : Bool :=
  (resolveStr fs p).isSome

/-- `os.path.islink` on a path string. -/
def islinkStr (fs : Fs) (p : PyStr) : Bool :=
  match resolveStr fs p with
  | some (Node.symlink _) => true
  | _ => false

/-- Errors the module can raise: `OSError("No such directory: ...")` from
`_nosuchdir`, `OSError("Parent directory is not allowed here: ...")` from
`_testdir_noparent`, other `OSError`s from the os module, and the
`AttributeError` raised by an attribute lookup that fails. -/
inductive Err : Type where
  | nosuchdir (path : PyStr) : Err
  | unsafeTarget (path : PyStr) : Err
  | oserror : Err
  | attributeError : Err
deriving Repr, DecidableEq

instance exceptDecEq {ε α : Type} [DecidableEq ε] [DecidableEq α] :
    DecidableEq (Except ε α) := fun a b =>
  match a, b with
  | Except.error e1, Except.error e2 =>
    if h : e1 = e2 then Decidable.isTrue (by rw [h])
    else Decidable.isFalse (by intro hc; cases hc; exact h rfl)
  | Except.ok v1, Except.ok v2 =>
    if h : v1 = v2 then Decidable.isTrue (by rw [h])
    else Decidable.isFalse (by intro hc; cases hc; exact h rfl)
  | Except.error _, Except.ok _ => Decidable.isFalse (by intro hc; cases hc)
  | Except.ok _, Except.error _ => Decidable.isFalse (by intro hc; cases hc)

/-- `fnmatch` matching for patterns made of `*`, `?` and literal characters,
with explicit fuel (each step shortens pattern plus name, so
`|pattern| + |name| + 1` steps always suffice).  Character classes `[...]`
are not modelled; the glob matcher is an external collaborator of the module
(spec section 6). -/
def fnmatchF : Nat → PyStr → PyStr → Bool
  | 0, _, _ => false
  | _ + 1, [], [] => true
  | f + 1, '*' :: ps, cs =>
    fnmatchF f ps cs ||
      (match cs with
       | [] => false
       | _ :: cs2 => fnmatchF f ('*' :: ps) cs2)
  | f + 1, '?' :: ps, _ :: cs => fnmatchF f ps cs
  | f + 1, p :: ps, c :: cs => p = c && fnmatchF f ps cs
  | _ + 1, _, _ => false

/-- `fnmatch.fnmatch` (POSIX: no case folding). -/
def fnmatchW (pat nm : PyStr) : Bool :=
  fnmatchF (pat.length + nm.length + 1) pat nm

/-- Python 2 `glob.glob` as the module uses it, following the collaborator
contract of spec section 4.2: the pattern splits into a literal directory
part plus a final segment; a wildcard final segment is expanded against the
directory listing with the hidden-file rule (`*` skips names starting with a
dot unless the pattern itself starts with one); without magic characters the
pattern matches itself when it `lexists`.  Wildcards inside the directory
part are outside the modelled collaborator and listing through a symlinked
directory is not modelled (the listing is empty). -/
def globModel (fs : Fs) (pattern : PyStr) : List PyStr :=
  if ¬ hasMagic pattern then
    if lexistsStr fs pattern then [pattern] else []
  else
    let dn := pyDirname pattern
    let bn := pyBasename pattern
    if hasMagic bn then
      match resolveStr fs (if dn = [] then ['.'] else dn) with
      | some d =>
        if isRealDir d then
          let names := childNames d
          let names2 := if bn.head? = some '.' then names
                        else names.filter (fun nm => nm.head? ≠ some '.')
          (names2.filter (fun nm => fnmatchW bn nm)).map
            (fun nm => if dn = [] then nm else pyJoin dn nm)
        else []
      | none => []
    else
      if bn = [] then (if isdirStr fs dn then [pattern] else [])
      else if lexistsStr fs (pyJoin dn bn) then [pyJoin dn bn] else []

/-- Split a component list into its parent components and final name. -/
def splitLast : List PyStr → Option (List PyStr × PyStr)
  | [] => none
  | [x] => some ([], x)
  | x :: y :: xs =>
    match splitLast (y :: xs) with
    | some (ys, l) => some (x :: ys, l)
    | none => none

/-- Remove the named child from a directory spine when it is an entry
`os.remove` can delete (a deletable regular file or a symlink); fail when the
name is absent, names a directory, or the file resists deletion. -/
def delFileEntry (nm : PyStr) : Node → Option Node
  | Node.dcons n2 c r =>
    if n2 = nm then
      match c with
      | Node.file true => some r
      | Node.symlink _ => some r
      | _ => none
    else (delFileEntry nm r).map (fun r2 => Node.dcons n2 c r2)
  | _ => none

/-- Remove the named child from a directory spine when it is an empty
directory (`os.rmdir` semantics). -/
def delEmptyDirEntry (nm : PyStr) : Node → Option Node
  | Node.dcons n2 c r =>
    if n2 = nm then
      match c with
      | Node.dnil => some r
      | _ => none
    else (delEmptyDirEntry nm r).map (fun r2 => Node.dcons n2 c r2)
  | _ => none

/-- `os.remove(p)`: locate the parent directory, remove the final entry;
`none` models the raised `OSError` (missing entry, directory target,
permission failure, or the unremovable root). -/
def osRemoveStr (fs : Fs) (p : PyStr) : Option Fs :=
  if p = [] then none
  else
    match splitLast (strToComps fs p) with
    | none => none
    | some (par, nm) =>
      match resolve fs.root par with
      | some d => (delFileEntry nm d).map (fun d2 => { fs with root := setNodeAt fs.root par d2 })
      | none => none

/-- `os.rmdir(p)`: fails unless the target is an existing empty directory
(and the root directory can never be removed). -/
def osRmdirStr (fs : Fs) (p : PyStr) : Option Fs :=
  if p = [] then none
  else
    match splitLast (strToComps fs p) with
    | none => none
    | some (par, nm) =>
      match resolve fs.root par with
      | some d => (delEmptyDirEntry nm d).map (fun d2 => { fs with root := setNodeAt fs.root par d2 })
      | none => none

/-- A fresh empty directory entry prepended to a directory spine. -/
def addEntry (d : Node) (nm : PyStr) : Node := Node.dcons nm Node.dnil d

/-- `os.mkdir(p)`: the parent must be an existing directory and the entry
must not exist (the creation mode argument is forwarded unmodelled). -/
def osMkdirStr (fs : Fs) (p : PyStr) : Option Fs :=
  if p = [] then none
  else
    match splitLast (strToComps fs p) with
    | none => none
    | some (par, nm) =>
      match resolve fs.root par with
      | some d =>
        if isRealDir d ∧ lookupChild d nm = none then
          some { fs with root := setNodeAt fs.root par (addEntry d nm) }
        else none
      | none => none

/-- The chain walk of `os.makedirs`: create every missing directory along the
components; raise (`none`) when the leaf already exists or a non-directory is
in the way. -/
def makedirsGo : List PyStr → Node → Option Node
  | [], _ => none
  | [nm], n =>
    if isRealDir n ∧ lookupChild n nm = none then some (addEntry n nm) else none
  | nm :: rest :: rest2, n =>
    if isRealDir n then
      match lookupChild n nm with
      | some c => (makedirsGo (rest :: rest2) c).map (fun c2 => setNodeAt n [nm] c2)
      | none => (makedirsGo (rest :: rest2) Node.dnil).map (fun c2 => Node.dcons nm c2 n)
    else none

/-- `os.makedirs(p)`. -/
def osMakedirsStr (fs : Fs) (p : PyStr) : Option Fs :=
  if p = [] then none
  else (makedirsGo (strToComps fs p) fs.root).map (fun r2 => { fs with root := r2 })

/-- `osglob.justpath(pattern, expanded)`: the path portion, where an existing
directory is its own path portion; `expanded = some true` absolutizes,
`some false` normalizes, `none` (Python `None`) normalizes but maps the empty
path to the empty string. -/
def justpath (fs : Fs) (pattern : PyStr) (expanded : Option Bool) : PyStr :=
  let path := if isdirStr fs pattern then pattern else pyDirname pattern
  match expanded with
  | none => if path ≠ [] then pyNormpath path else []
  | some true => pyAbspath fs path
  | some false => pyNormpath path

/-- `osglob.justname(pattern)`: empty for an existing directory, otherwise
the basename. -/
def justname (fs : Fs) (pattern : PyStr) : PyStr :=
  if isdirStr fs pattern then [] else pyBasename pattern

/-- `osglob.juststem(pattern)` = `justname(os.path.splitext(pattern)[0])`. -/
def juststem (fs : Fs) (pattern : PyStr) : PyStr :=
  justname fs (pySplitext pattern).1

/-- `osglob.justext(pattern)` = `os.path.splitext(pattern)[1][1:]`. -/
def justext (pattern : PyStr) : PyStr :=
  (pySplitext pattern).2.drop 1

/-- The deletion loop of `osglob.remove`: try `os.remove` on each name, a
failure is swallowed and flips the aggregate flag, the loop continues. -/
def deleteLoop (fs : Fs) : List PyStr → Fs × Bool
  | [] => (fs, true)
  | m :: rest =>
    match osRemoveStr fs m with
    | some fs2 => deleteLoop fs2 rest
    | none => ((deleteLoop fs rest).1, false)

/-- `osglob.remove(pattern)`: raise `_nosuchdir` when the pattern's
non-empty directory part is not an existing directory, otherwise delete
every match that `os.path.isfile` accepts (Python 2 `filter` materializes
the matches before the loop), swallowing per-file failures. -/
def remove (fs : Fs) (pattern : PyStr) : Except Err (Fs × Bool) :=
  let path := pyDirname pattern
  if path ≠ [] ∧ ¬ isdirStr fs path then Except.error (Err.nosuchdir path)
  else
    let files := (globModel fs pattern).filter (fun m => isfileStr fs m)
    Except.ok (deleteLoop fs files)

/-- `osglob.files.remove(path)` (class `Files`): `_testdir`, then the module
`remove` on the dot wildcard and on the plain wildcard, both always running;
the result is the conjunction of the two pass results. -/
def filesRemove (fs : Fs) (path : PyStr) : Except Err (Fs × Bool) :=
  if ¬ isdirStr fs path then Except.error (Err.nosuchdir path)
  else
    match remove fs (pyJoin path (pys ".*")) with
    | Except.error e => Except.error e
    | Except.ok (fs1, ok1) =>
      match remove fs1 (pyJoin path (pys "*")) with
      | Except.error e => Except.error e
      | Except.ok (fs2, ok2) => Except.ok (fs2, ok2 && ok1)

/-- `osglob.rmdir(path, silent)`: missing directories are success; an
`OSError` from `os.rmdir` is re-raised unless `silent`, in which case the
result is `false`. -/
def rmdir (fs : Fs) (path : PyStr) (silent : Bool) : Except Err (Fs × Bool) :=
  if isdirStr fs path then
    match osRmdirStr fs path with
    | some fs2 => Except.ok (fs2, true)
    | none => if silent then Except.ok (fs, false) else Except.error Err.oserror
  else Except.ok (fs, true)

/-- The `while os.sep in path` loop of `osglob.removedirs`: climb via
`justpath` (whose default converts to an absolute path) and `rmdir` without
`silent`, catching `OSError` as a `false` result. -/
def removedirsLoop : Nat → Fs → PyStr → PyStr → Option (Except Err (Fs × Bool))
  | 0, _, _, _ => none
  | fuel + 1, fs, path, root =>
    if ¬ path.contains '/' then some (Except.ok (fs, true))
    else
      let path2 := justpath fs path (some true)
      match rmdir fs (pyJoin root path2) false with
      | Except.error _ => some (Except.ok (fs, false))
      | Except.ok (fs2, _) => removedirsLoop fuel fs2 path2 root

/-- `osglob.removedirs(path, root, silent)`. -/
def removedirs (fuel : Nat) (fs : Fs) (path root : PyStr) (silent : Bool) :
    Option (Except Err (Fs × Bool)) :=
  match rmdir fs (pyJoin root path) silent with
  | Except.error e => some (Except.error e)
  | Except.ok (fs1, false) => some (Except.ok (fs1, false))
  | Except.ok (fs1, true) => removedirsLoop fuel fs1 path root

/-- The accepted values of the `purge` keyword of `mkdir`/`makedirs` (the
dictionary lookup in `_mkdir` raises `KeyError` on anything else, so other
values are outside the type). -/
inductive PurgeArg : Type where
  | pFalse : PurgeArg
  | pFiles : PurgeArg
  | pTrue : PurgeArg
  | pContent : PurgeArg
deriving Repr, DecidableEq

/-- `osglob._mkdir(mkfunc, path, purge)`: create the directory when absent;
when it exists and `purge` is given, the code runs `os.content.remove(path)`
or `os.files.remove(path)` — but the imported standard `os` module has no
attributes `content` or `files` (the singletons live on the `osglob` module),
so the attribute lookup raises `AttributeError` before any purge happens. -/
def mkdirCore (chain : Bool) (fs : Fs) (path : PyStr) (purge : Option PurgeArg) :
    Except Err Fs :=
  if ¬ isdirStr fs path then
    match (if chain then osMakedirsStr fs path else osMkdirStr fs path) with
    | some fs2 => Except.ok fs2
    | none => Except.error Err.oserror
  else
    match purge with
    | none => Except.ok fs
    | some _ => Except.error Err.attributeError

/-- `osglob.mkdir(path, purge=...)`. -/
def mkdir (fs : Fs) (path : PyStr) (purge : Option PurgeArg) : Except Err Fs :=
  mkdirCore false fs path purge

/-- `osglob.makedirs(path, purge=...)`. -/
def makedirs (fs : Fs) (path : PyStr) (purge : Option PurgeArg) : Except Err Fs :=
  mkdirCore true fs path purge

/-- The guard of `_testdir_noparent` (after `_testdir` has passed): reject
when the path string equals `os.pardir`, or when the string returned by
`os.getcwd()` starts with the path string and is strictly longer (Python
`or` binds looser than `and`). -/
def noparentGuard (path cwdS : PyStr) : Bool :=
  path = ['.', '.'] || (List.isPrefixOf path cwdS && path.length < cwdS.length)

/-- Modelled from the spec: "the current working location is nested inside
`directory` at a strictly deeper level than `directory` itself", i.e. the
directory's components are a strict prefix of the working directory's
components.  Stated from the spec's words for comparison with the code's
string-prefix test. -/
def specStrictAncestor (dir cwd : List PyStr) : Bool :=
  List.isPrefixOf dir cwd && dir ≠ cwd

/-- `shutil.rmtree(..., onerror=try_make_rw)` over a directory spine in
listing order: symlinks and deletable files are removed; the first file that
still resists deletion after the read-only retry makes `try_make_rw`
re-raise, aborting the walk with the already-deleted entries gone; a failed
subtree aborts the parent walk the same way.  Returns the remaining spine
and whether everything (including the directory itself) was removed. -/
def rmtreeSpine : Node → Node × Bool
  | Node.dcons nm (Node.file del) r =>
    if del then rmtreeSpine r else (Node.dcons nm (Node.file del) r, false)
  | Node.dcons _ (Node.symlink _) r => rmtreeSpine r
  | Node.dcons nm c r =>
    let pc := rmtreeSpine c
    if pc.2 then rmtreeSpine r else (Node.dcons nm pc.1 r, false)
  | n => (n, true)

/-- `shutil.rmtree` on one directory-like entry: called on a symlink it
raises immediately (its top-level link check) leaving the entry intact; on a
real directory it runs the spine walk. -/
def rmtreeAttempt : Node → Node × Bool
  | Node.symlink t => (Node.symlink t, false)
  | n => rmtreeSpine n

/-- The body of `Content.remove` after its guards, over the listing of the
target (in spine order), with the working-directory string and the target's
path string threaded for the guards of the recursive salvage calls.  Fuel
makes the `self.remove(fullname)` recursion structural; `none` is exhausted
fuel.  For each child: a directory-like child goes to `shutil.rmtree`, and
on failure the aggregate flips and `self.remove(fullname)` (guards included)
salvages what it can, its errors propagating; any other child goes to
`os.remove` with failures swallowed into the aggregate.  Listing through a
symlinked directory is not modelled (such a salvage listing is empty). -/
def contentLoop : Nat → PyStr → PyStr → Node → Option (Except Err (Node × Bool))
  | 0, _, _, _ => none
  | _ + 1, _, _, Node.dnil => some (Except.ok (Node.dnil, true))
  | fuel + 1, cwdS, pathS, Node.dcons nm c r =>
    let fullname := pyJoin pathS nm
    if isDirNode c then
      match rmtreeAttempt c with
      | (_, true) => contentLoop fuel cwdS pathS r
      | (c2, false) =>
        let nested :=
          if ¬ isDirNode c2 then some (Except.error (Err.nosuchdir fullname))
          else if noparentGuard fullname cwdS then
            some (Except.error (Err.unsafeTarget fullname))
          else contentLoop fuel cwdS fullname c2
        match nested with
        | none => none
        | some (Except.error e) => some (Except.error e)
        | some (Except.ok (c3, _)) =>
          match contentLoop fuel cwdS pathS r with
          | none => none
          | some (Except.error e) => some (Except.error e)
          | some (Except.ok (r2, _)) => some (Except.ok (Node.dcons nm c3 r2, false))
    else
      if leafRemovable c then contentLoop fuel cwdS pathS r
      else
        match contentLoop fuel cwdS pathS r with
        | none => none
        | some (Except.error e) => some (Except.error e)
        | some (Except.ok (r2, _)) => some (Except.ok (Node.dcons nm c r2, false))
  | _ + 1, _, _, n => some (Except.ok (n, true))

/-- `osglob.content.remove(path)` (class `Content`): `_testdir_noparent`
(missing-directory check, then the parent guard), then the listing loop,
writing the surviving subtree back at the target's components. -/
def contentRemove (fuel : Nat) (fs : Fs) (pathS : PyStr) :
    Option (Except Err (Fs × Bool)) :=
  if ¬ isdirStr fs pathS then some (Except.error (Err.nosuchdir pathS))
  else if noparentGuard pathS (cwdString fs) then
    some (Except.error (Err.unsafeTarget pathS))
  else
    let comps := strToComps fs pathS
    match resolve fs.root comps with
    | some d =>
      match contentLoop fuel (cwdString fs) pathS d with
      | none => none
      | some (Except.error e) => some (Except.error e)
      | some (Except.ok (d2, ok)) =>
        some (Except.ok ({ fs with root := setNodeAt fs.root comps d2 }, ok))
    | none => some (Except.error (Err.nosuchdir pathS))

/-- Every file in the subtree deletes cleanly and no symlinked directory gets
in `rmtree`'s way: the hypothesis under which a content purge runs without
any per-entry failure. -/
def contentDeletable : Node → Bool
  | Node.file d => d
  | Node.symlink SymTarget.toDir => false
  | Node.symlink _ => true
  | Node.dnil => true
  | Node.dcons _ c r => contentDeletable c && contentDeletable r

/-- A well-formed entry name: nonempty, no slash, not the self or parent
reference (so lexical path resolution agrees with the filesystem). -/
def cleanName (nm : PyStr) : Bool :=
  nm ≠ [] && ¬ nm.contains '/' && nm ≠ ['.'] && nm ≠ ['.', '.']

/-- Well-formed filesystem tree: directory spines are `dnil`-terminated and
carry clean, duplicate-free sibling names, recursively. -/
def wfNode : Node → Bool
  | Node.dcons nm c r =>
    cleanName nm && ¬ (childNames r).contains nm && isRealDir r && wfNode c && wfNode r
  | _ => true

/-- The number of entries in a directory spine. -/
def spineLen : Node → Nat
  | Node.dcons _ _ r => spineLen r + 1
  | _ => 0

/-- All components are well-formed entry names. -/
def cleanComps (cs : List PyStr) : Bool := cs.all cleanName

/-- The per-name test of the modelled glob expansion: the hidden-file rule
(`*` skips dot names unless the pattern starts with a dot) plus `fnmatch`. -/
def matchesPat (bn nm : PyStr) : Bool :=
  (bn.head? = some '.' || nm.head? ≠ some '.') && fnmatchW bn nm

/-- The names of the matched direct children that `os.path.isfile` accepts,
in listing order: the files `remove` attempts to delete. -/
def selNames (bn : PyStr) : Node → List PyStr
  | Node.dcons nm c r =>
    if matchesPat bn nm && isFileNode c then nm :: selNames bn r else selNames bn r
  | _ => []

/-- A directory spine after the deletion pass of `remove` over it: every
matched file-like entry whose deletion succeeds is gone, everything else
stays. -/
def spineDelete (bn : PyStr) : Node → Node
  | Node.dcons nm c r =>
    if matchesPat bn nm && isFileNode c && leafRemovable c then spineDelete bn r
    else Node.dcons nm c (spineDelete bn r)
  | n => n

/-- The aggregate flag of the deletion pass: false exactly when some matched
file-like entry resists deletion. -/
def spineOk (bn : PyStr) : Node → Bool
  | Node.dcons nm c r =>
    (!(matchesPat bn nm && isFileNode c) || leafRemovable c) && spineOk bn r
  | _ => true

/-- Sequential per-name deletion on a directory spine: the loop of `remove`
viewed at its target directory. -/
def foldDel : Node → List PyStr → Node × Bool
  | d, [] => (d, true)
  | d, nm :: rest =>
    match delFileEntry nm d with
    | some d2 => foldDel d2 rest
    | none => ((foldDel d rest).1, false)

def exC10fs : Fs := ⟨Node.dcons (pys "f") (Node.file true) Node.dnil, []⟩

def exC1fs : Fs := ⟨Node.dcons (pys "D") Node.dnil Node.dnil, []⟩

def exC4fs : Fs := ⟨Node.dcons (pys "D") Node.dnil Node.dnil, []⟩

def exC9fs : Fs :=
  ⟨Node.dcons (pys "w") (Node.dcons (pys "keep") Node.dnil Node.dnil) Node.dnil, [pys "w"]⟩

def exC8fs : Fs := ⟨Node.dcons (pys "d.e") Node.dnil Node.dnil, []⟩

def exC2fs : Fs :=
  ⟨Node.dcons (pys "home")
    (Node.dcons (pys "foo") Node.dnil
      (Node.dcons (pys "foobar") Node.dnil Node.dnil))
    Node.dnil,
   [pys "home", pys "foobar"]⟩

def exC6fs : Fs :=
  ⟨Node.dcons (pys "D")
    (Node.dcons (pys "a") (Node.file true)
      (Node.dcons (pys ".b") (Node.file true)
        (Node.dcons (pys "sub")
          (Node.dcons (pys "inner") (Node.file true) Node.dnil) Node.dnil)))
    Node.dnil,
   []⟩

def exC6node : Node :=
  Node.dcons (pys "a") (Node.file true)
    (Node.dcons (pys ".b") (Node.file true)
      (Node.dcons (pys "sub")
        (Node.dcons (pys "inner") (Node.file true) Node.dnil) Node.dnil))

def exC6sibfs : Fs :=
  ⟨Node.dcons (pys "d")
    (Node.dcons (pys "ab")
      (Node.dcons (pys "f") (Node.file true) Node.dnil)
      (Node.dcons (pys "abc") Node.dnil Node.dnil))
    Node.dnil,
   [pys "d", pys "abc"]⟩

def exC3d : Node :=
  Node.dcons (pys "a") (Node.file true)
    (Node.dcons (pys "b") (Node.file false)
      (Node.dcons (pys "c") (Node.file true) Node.dnil))

def exC3fs : Fs := ⟨Node.dcons (pys "D") exC3d Node.dnil, []⟩

def exC7fs : Fs :=
  ⟨Node.dcons (pys "w")
    (Node.dcons (pys "s") (Node.symlink SymTarget.toFile) Node.dnil)
    Node.dnil,
   [pys "w"]⟩

def exC7after : Fs := ⟨Node.dcons (pys "w") Node.dnil Node.dnil, [pys "w"]⟩

def exC7wd : Node :=
  Node.dcons (pys "x") (Node.file true)
    (Node.dcons (pys "sub") (Node.dcons (pys "y") (Node.file true) Node.dnil)
      (Node.dcons (pys "bl") (Node.symlink SymTarget.broken) Node.dnil))

def exC7wfs : Fs := ⟨Node.dcons (pys "E") exC7wd Node.dnil, []⟩

def exC5d : Node :=
  Node.dcons (pys "a") (Node.file true)
    (Node.dcons (pys ".b") (Node.file true)
      (Node.dcons (pys "sub")
        (Node.dcons (pys "inner") (Node.file true) Node.dnil) Node.dnil))

def exC5fs : Fs := ⟨Node.dcons (pys "D") exC5d Node.dnil, []⟩

theorem cleanName_spec (nm : PyStr) (h : cleanName nm = true) :
    nm ≠ [] ∧ '/' ∉ nm ∧ nm ≠ ['.'] ∧ nm ≠ ['.', '.'] := by
  rw [cleanName] at h
  simp only [Bool.and_eq_true, decide_eq_true_eq, Bool.not_eq_true'] at h
  refine ⟨h.1.1.1, ?_, h.1.2, h.2⟩
  intro hm
  have hc : List.contains nm '/' = true := by simpa using hm
  rw [hc] at h
  exact absurd h.1.1.2 (by simp)

theorem splitOnSlash_no_slash : ∀ x : PyStr, '/' ∉ x → splitOnSlash x = [x] := by
  intro x
  induction x with
  | nil => intro _; rfl
  | cons c rest ih =>
    intro h
    have hc : ¬ c = '/' := fun hh => h (hh ▸ List.mem_cons_self c rest)
    have hr : '/' ∉ rest := fun hm => h (List.mem_cons_of_mem c hm)
    rw [splitOnSlash, if_neg hc, ih hr]

theorem splitOnSlash_append : ∀ x t : PyStr, '/' ∉ x →
    splitOnSlash (x ++ '/' :: t) = x :: splitOnSlash t := by
  intro x
  induction x with
  | nil => intro t _; rw [List.nil_append, splitOnSlash, if_pos rfl]
  | cons c x2 ih =>
    intro t h
    have hc : ¬ c = '/' := fun hh => h (hh ▸ List.mem_cons_self c x2)
    have hx : '/' ∉ x2 := fun hm => h (List.mem_cons_of_mem c hm)
    rw [List.cons_append, splitOnSlash, if_neg hc, ih t hx]

theorem splitOnSlash_intercalate : ∀ cs : List PyStr, cs ≠ [] →
    (∀ nm ∈ cs, '/' ∉ nm) → splitOnSlash (intercalateSlash cs) = cs := by
  intro cs
  induction cs with
  | nil => intro h _; exact absurd rfl h
  | cons x xs ih =>
    intro _ hmem
    cases xs with
    | nil =>
      rw [intercalateSlash, splitOnSlash_no_slash x (hmem x (List.mem_cons_self x []))]
    | cons y ys =>
      have h1 : intercalateSlash (x :: y :: ys) = x ++ '/' :: intercalateSlash (y :: ys) := rfl
      rw [h1, splitOnSlash_append x _ (hmem x (List.mem_cons_self x (y :: ys))),
        ih (List.cons_ne_nil y ys) (fun nm hm => hmem nm (List.mem_cons_of_mem x hm))]

theorem intercalateSlash_append_one : ∀ cs : List PyStr, ∀ nm : PyStr, cs ≠ [] →
    intercalateSlash (cs ++ [nm]) = intercalateSlash cs ++ '/' :: nm := by
  intro cs
  induction cs with
  | nil => intro nm h; exact absurd rfl h
  | cons x xs ih =>
    intro nm _
    cases xs with
    | nil => rfl
    | cons y ys =>
      have h1 : intercalateSlash ((x :: y :: ys) ++ [nm]) =
          x ++ '/' :: intercalateSlash ((y :: ys) ++ [nm]) := rfl
      rw [h1, ih nm (List.cons_ne_nil y ys)]
      show x ++ '/' :: (intercalateSlash (y :: ys) ++ '/' :: nm) =
        (x ++ '/' :: intercalateSlash (y :: ys)) ++ '/' :: nm
      simp

theorem renderAbs_append_one (cs : List PyStr) (nm : PyStr) (h : cs ≠ []) :
    renderAbs (cs ++ [nm]) = renderAbs cs ++ '/' :: nm := by
  unfold renderAbs
  rw [intercalateSlash_append_one cs nm h]
  rfl

theorem intercalate_head : ∀ cs : List PyStr, cs ≠ [] → cleanComps cs = true →
    ∃ ch l, intercalateSlash cs = ch :: l ∧ ch ≠ '/' := by
  intro cs
  induction cs with
  | nil => intro h _; exact absurd rfl h
  | cons x xs _ =>
    intro _ hclean
    rw [cleanComps, List.all_cons, Bool.and_eq_true] at hclean
    rcases cleanName_spec x hclean.1 with ⟨hne, hns, -, -⟩
    cases x with
    | nil => exact absurd rfl hne
    | cons ch l2 =>
      have hch : ch ≠ '/' := by
        intro hh
        rw [hh] at hns
        exact hns (List.mem_cons_self '/' l2)
      cases xs with
      | nil => exact ⟨ch, l2, rfl, hch⟩
      | cons y ys => exact ⟨ch, l2 ++ '/' :: intercalateSlash (y :: ys), rfl, hch⟩

theorem intercalate_reverse_head : ∀ cs : List PyStr, cs ≠ [] → cleanComps cs = true →
    ∃ ch l, (intercalateSlash cs).reverse = ch :: l ∧ ch ≠ '/' := by
  intro cs
  induction cs with
  | nil => intro h _; exact absurd rfl h
  | cons x xs ih =>
    intro _ hclean
    rw [cleanComps, List.all_cons, Bool.and_eq_true] at hclean
    cases xs with
    | nil =>
      rcases cleanName_spec x hclean.1 with ⟨hne, hns, -, -⟩
      cases hx : x.reverse with
      | nil => exact absurd (by simpa using congrArg List.reverse hx) hne
      | cons ch l2 =>
        have hmm : ch ∈ x := List.mem_reverse.mp (by rw [hx]; exact List.mem_cons_self ch l2)
        have hch : ch ≠ '/' := by
          intro hh
          rw [hh] at hmm
          exact hns hmm
        exact ⟨ch, l2, by rw [intercalateSlash, hx], hch⟩
    | cons y ys =>
      rcases ih (List.cons_ne_nil y ys) hclean.2 with ⟨ch, l2, hrev, hch⟩
      refine ⟨ch, l2 ++ ('/' :: x.reverse), ?_, hch⟩
      have h1 : intercalateSlash (x :: y :: ys) = x ++ '/' :: intercalateSlash (y :: ys) := rfl
      rw [h1, List.reverse_append, List.reverse_cons, hrev]
      simp

theorem dropWhile_slash_of_reverse_head (p : PyStr) (ch : Char) (l : PyStr)
    (hrev : p.reverse = ch :: l) (hch : ch ≠ '/') :
    dropTrailingSlashes (p ++ ['/']) = p := by
  unfold dropTrailingSlashes
  have h0 : ((p ++ ['/']).reverse) = '/' :: p.reverse := by
    rw [List.reverse_append]; rfl
  rw [h0, List.dropWhile_cons, if_pos (by decide), hrev, List.dropWhile_cons,
    if_neg (by simp [hch]), ← hrev, List.reverse_reverse]

theorem cleanComps_mem (cs : List PyStr) (h : cleanComps cs = true) :
    ∀ nm ∈ cs, cleanName nm = true := by
  rw [cleanComps, List.all_eq_true] at h
  exact h

theorem renderAbs_reverse (cs : List PyStr) (hne : cs ≠ []) (hclean : cleanComps cs = true) :
    ∃ ch l, (renderAbs cs).reverse = ch :: l ∧ ch ≠ '/' := by
  rcases intercalate_reverse_head cs hne hclean with ⟨ch, l, hrev, hch⟩
  refine ⟨ch, l ++ ['/'], ?_, hch⟩
  unfold renderAbs
  rw [List.reverse_cons, hrev]
  rfl

theorem renderAbs_getLast_ne_slash (cs : List PyStr) (hne : cs ≠ [])
    (hclean : cleanComps cs = true) : (renderAbs cs).getLast? ≠ some '/' := by
  rcases renderAbs_reverse cs hne hclean with ⟨ch, l, hrev, hch⟩
  rw [← List.head?_reverse, hrev]
  simp [hch]

theorem pySplitRaw_append : ∀ h t : PyStr, '/' ∉ t →
    pySplitRaw (h ++ '/' :: t) = (h ++ ['/'], t) := by
  intro h
  induction h with
  | nil =>
    intro t ht
    have hc : t.contains '/' = false := by simpa using ht
    rw [List.nil_append, pySplitRaw, hc]
    simp
  | cons c h2 ih =>
    intro t ht
    have hc : (h2 ++ '/' :: t).contains '/' = true := by
      simp
    rw [List.cons_append, pySplitRaw, hc]
    simp only [if_true]
    rw [ih t ht]
    simp

theorem pyDirname_render_pattern (cs : List PyStr) (bn : PyStr)
    (hne : cs ≠ []) (hclean : cleanComps cs = true) (hbn : '/' ∉ bn) :
    pyDirname (renderAbs cs ++ '/' :: bn) = renderAbs cs ∧
    pyBasename (renderAbs cs ++ '/' :: bn) = bn := by
  have hraw := pySplitRaw_append (renderAbs cs) bn hbn
  rcases renderAbs_reverse cs hne hclean with ⟨ch, l, hrev, hch⟩
  constructor
  · unfold pyDirname
    rw [hraw]
    have hmemch : ch ∈ renderAbs cs :=
      List.mem_reverse.mp (by rw [hrev]; exact List.mem_cons_self ch l)
    have hall : ((renderAbs cs ++ ['/']).all (fun c => c = '/')) = false := by
      rw [List.all_eq_false]
      exact ⟨ch, List.mem_append_left _ hmemch, by simp [hch]⟩
    rw [if_pos ⟨by simp, by rw [hall]; simp⟩]
    exact dropWhile_slash_of_reverse_head (renderAbs cs) ch l hrev hch
  · unfold pyBasename
    rw [hraw]

theorem pyJoin_render (cs : List PyStr) (b : PyStr) (hne : cs ≠ [])
    (hclean : cleanComps cs = true) (hb : b.head? ≠ some '/') :
    pyJoin (renderAbs cs) b = renderAbs cs ++ '/' :: b := by
  unfold pyJoin
  rw [if_neg hb]
  have h2 : ¬ (renderAbs cs = [] ∨ (renderAbs cs).getLast? = some '/') := by
    rintro (h | h)
    · exact absurd h (by unfold renderAbs; simp)
    · exact renderAbs_getLast_ne_slash cs hne hclean h
  rw [if_neg h2]

theorem foldl_normKeep_clean : ∀ (cs : List PyStr) (acc : List PyStr),
    cleanComps cs = true → List.foldl (normKeep 1) acc cs = acc ++ cs := by
  intro cs
  induction cs with
  | nil => intro acc _; simp
  | cons x rest ih =>
    intro acc hc
    rw [cleanComps, List.all_cons, Bool.and_eq_true] at hc
    rcases cleanName_spec x hc.1 with ⟨hne, -, hdot, hdd⟩
    rw [List.foldl_cons]
    have h1 : normKeep 1 acc x = acc ++ [x] := by
      unfold normKeep
      rw [if_neg (not_or.mpr ⟨hne, hdot⟩), if_pos (Or.inl hdd)]
    rw [h1, ih (acc ++ [x]) hc.2, List.append_assoc]
    rfl

theorem pyNormpath_render (cs : List PyStr) (hclean : cleanComps cs = true) :
    pyNormpath (renderAbs cs) = renderAbs cs := by
  cases cs with
  | nil => rfl
  | cons x xs =>
    rcases intercalate_head (x :: xs) (List.cons_ne_nil x xs) hclean with ⟨ch, l, hic, hch⟩
    have hmem : ∀ nm ∈ x :: xs, '/' ∉ nm := fun nm hm =>
      (cleanName_spec nm (cleanComps_mem _ hclean nm hm)).2.1
    have hpne : renderAbs (x :: xs) ≠ [] := by unfold renderAbs; simp
    have hhead : (renderAbs (x :: xs)).head? = some '/' := rfl
    have htake2 : (renderAbs (x :: xs)).take 2 = ['/', ch] := by
      unfold renderAbs
      rw [hic]
      rfl
    have hsplit : splitOnSlash (renderAbs (x :: xs)) = [] :: x :: xs := by
      have h0 : renderAbs (x :: xs) = '/' :: intercalateSlash (x :: xs) := rfl
      rw [h0, splitOnSlash, if_pos rfl,
        splitOnSlash_intercalate (x :: xs) (List.cons_ne_nil x xs) hmem]
    have hfold : List.foldl (normKeep 1) [] ([] :: x :: xs) = x :: xs := by
      rw [List.foldl_cons]
      have h0 : normKeep 1 [] [] = [] := by
        unfold normKeep
        rw [if_pos (Or.inl rfl)]
      rw [h0, foldl_normKeep_clean (x :: xs) [] hclean]
      rfl
    unfold pyNormpath
    rw [if_neg hpne]
    simp only [hhead, htake2, hsplit, hfold, List.cons.injEq, hch, and_false, false_and,
      if_false, reduceIte, List.replicate, List.singleton_append]
    rw [if_neg (show ¬ ('/' :: intercalateSlash (x :: xs) = []) by simp)]
    rfl

theorem strToComps_render (fs : Fs) (cs : List PyStr) (hclean : cleanComps cs = true) :
    strToComps fs (renderAbs cs) = cs := by
  unfold strToComps pyAbspath
  rw [if_pos (show pyIsAbs (renderAbs cs) = true from rfl), pyNormpath_render cs hclean]
  cases cs with
  | nil => rfl
  | cons x xs =>
    have hmem : ∀ nm ∈ x :: xs, '/' ∉ nm := fun nm hm =>
      (cleanName_spec nm (cleanComps_mem _ hclean nm hm)).2.1
    have h0 : renderAbs (x :: xs) = '/' :: intercalateSlash (x :: xs) := rfl
    rw [h0, splitOnSlash, if_pos rfl,
      splitOnSlash_intercalate (x :: xs) (List.cons_ne_nil x xs) hmem]
    rw [List.filter_cons]
    simp only [ne_eq, not_true_eq_false, decide_False, Bool.false_eq_true, if_false, reduceIte]
    apply List.filter_eq_self.mpr
    intro nm hm
    have := cleanName_spec nm (cleanComps_mem _ hclean nm hm)
    simp [this.1]

theorem cleanComps_append_one (cs : List PyStr) (nm : PyStr)
    (hclean : cleanComps cs = true) (hnm : cleanName nm = true) :
    cleanComps (cs ++ [nm]) = true := by
  rw [cleanComps, List.all_append]
  rw [cleanComps] at hclean
  simp [hclean, hnm]

theorem strToComps_render_name (fs : Fs) (cs : List PyStr) (nm : PyStr)
    (hne : cs ≠ []) (hclean : cleanComps cs = true) (hnm : cleanName nm = true) :
    strToComps fs (renderAbs cs ++ '/' :: nm) = cs ++ [nm] := by
  rw [← renderAbs_append_one cs nm hne]
  exact strToComps_render fs (cs ++ [nm]) (cleanComps_append_one cs nm hclean hnm)

theorem resolve_append (p : List PyStr) (x : PyStr) : ∀ n : Node,
    resolve n (p ++ [x]) = (resolve n p).bind (fun m => lookupChild m x) := by
  induction p with
  | nil =>
    intro n
    rw [List.nil_append]
    cases hl : lookupChild n x with
    | none => simp [resolve, hl]
    | some c => simp [resolve, hl]
  | cons s rest ih =>
    intro n
    rw [List.cons_append]
    cases hl : lookupChild n s with
    | none => simp [resolve, hl]
    | some c =>
      simp only [resolve, hl]
      exact ih c

theorem setNodeAt_setNodeAt (p : List PyStr) (a b : Node) : ∀ root : Node,
    setNodeAt (setNodeAt root p a) p b = setNodeAt root p b := by
  induction p with
  | nil => intro root; simp [setNodeAt]
  | cons s rest ih =>
    intro root
    induction root with
    | file d => rfl
    | symlink t => rfl
    | dnil => rfl
    | dcons nm c r ihc ihr =>
      by_cases hs : nm = s
      · subst hs
        simp [setNodeAt, ih c]
      · simp only [setNodeAt, if_neg hs]
        simp only [setNodeAt, if_neg hs] at ihr
        rw [ihr]

theorem wf_lookupChild : ∀ (n : Node) (s : PyStr) (c : Node), wfNode n = true →
    lookupChild n s = some c → wfNode c = true := by
  intro n
  induction n with
  | file d => intro s c _ h; simp [lookupChild] at h
  | symlink t => intro s c _ h; simp [lookupChild] at h
  | dnil => intro s c _ h; simp [lookupChild] at h
  | dcons nm ch r ihc ihr =>
    intro s c hwf h
    rw [wfNode] at hwf
    simp only [Bool.and_eq_true] at hwf
    rw [lookupChild] at h
    by_cases hs : nm = s
    · rw [if_pos hs] at h
      cases h
      exact hwf.1.2
    · rw [if_neg hs] at h
      exact ihr s c hwf.2 h

theorem wf_resolve (p : List PyStr) : ∀ (root d : Node), wfNode root = true →
    resolve root p = some d → wfNode d = true := by
  induction p with
  | nil =>
    intro root d hwf h
    rw [resolve] at h
    cases h
    exact hwf
  | cons s rest ih =>
    intro root d hwf h
    rw [resolve] at h
    cases hl : lookupChild root s with
    | none => rw [hl] at h; exact absurd h (by simp)
    | some c =>
      rw [hl] at h
      exact ih c d (wf_lookupChild root s c hwf hl) h

theorem childNames_setNodeAt (s : PyStr) (rest : List PyStr) (m : Node) :
    ∀ n : Node, childNames (setNodeAt n (s :: rest) m) = childNames n := by
  intro n
  induction n with
  | file d => rfl
  | symlink t => rfl
  | dnil => rfl
  | dcons nm c r ihc ihr =>
    by_cases hs : nm = s
    · subst hs
      rw [setNodeAt, if_pos rfl, childNames, childNames]
    · rw [setNodeAt, if_neg hs, childNames, childNames, ihr]

theorem isRealDir_setNodeAt (s : PyStr) (rest : List PyStr) (m : Node) :
    ∀ n : Node, isRealDir (setNodeAt n (s :: rest) m) = isRealDir n := by
  intro n
  cases n with
  | file d => rfl
  | symlink t => rfl
  | dnil => rfl
  | dcons nm c r =>
    rw [setNodeAt]
    by_cases hs : nm = s
    · rw [if_pos hs]; rfl
    · rw [if_neg hs]; rfl

theorem wf_setNodeAt (p : List PyStr) (m : Node) (hm : wfNode m = true) :
    ∀ root : Node, wfNode root = true → wfNode (setNodeAt root p m) = true := by
  induction p with
  | nil => intro root _; simp only [setNodeAt]; exact hm
  | cons s rest ih =>
    intro root
    induction root with
    | file d => intro h; exact h
    | symlink t => intro h; exact h
    | dnil => intro h; exact h
    | dcons nm c r ihc ihr =>
      intro hwf
      rw [wfNode] at hwf
      simp only [Bool.and_eq_true] at hwf
      rw [setNodeAt]
      by_cases hs : nm = s
      · rw [if_pos hs, wfNode]
        simp only [Bool.and_eq_true]
        exact ⟨⟨⟨⟨hwf.1.1.1.1, hwf.1.1.1.2⟩, hwf.1.1.2⟩, ih c hwf.1.2⟩, hwf.2⟩
      · rw [if_neg hs, wfNode]
        simp only [Bool.and_eq_true]
        refine ⟨⟨⟨⟨hwf.1.1.1.1, ?_⟩, ?_⟩, hwf.1.2⟩, ihr hwf.2⟩
        · rw [childNames_setNodeAt s rest m r]
          exact hwf.1.1.1.2
        · rw [isRealDir_setNodeAt s rest m r]
          exact hwf.1.1.2

theorem fnmatchF_star : ∀ (nm : PyStr) (f : Nat), nm.length + 2 ≤ f →
    fnmatchF f ['*'] nm = true := by
  intro nm
  induction nm with
  | nil =>
    intro f hf
    cases f with
    | zero => exact absurd hf (by decide)
    | succ f1 =>
      cases f1 with
      | zero => exact absurd hf (by decide)
      | succ f2 => rfl
  | cons c cs ih =>
    intro f hf
    cases f with
    | zero => exact absurd hf (by omega)
    | succ f1 =>
      have h1 : fnmatchF (f1 + 1) ['*'] (c :: cs) =
          (fnmatchF f1 [] (c :: cs) || fnmatchF f1 ['*'] cs) := rfl
      rw [h1, ih f1 (by simp at hf ⊢; omega)]
      simp

theorem fnmatchW_star (nm : PyStr) : fnmatchW ['*'] nm = true := by
  unfold fnmatchW
  exact fnmatchF_star nm _ (by simp; omega)

theorem fnmatchW_dotstar (nm : PyStr) :
    fnmatchW ['.', '*'] nm = true ↔ nm.head? = some '.' := by
  cases nm with
  | nil =>
    constructor
    · intro h; exact absurd h (by decide)
    · intro h; exact absurd h (by simp)
  | cons c cs =>
    unfold fnmatchW
    have h1 : fnmatchF (['.', '*'].length + (c :: cs).length + 1) ['.', '*'] (c :: cs) =
        (decide (('.' : Char) = c) && fnmatchF (cs.length + 3) ['*'] cs) := by
      have h2 : ['.', '*'].length + (c :: cs).length + 1 = (cs.length + 3) + 1 := by
        simp
        omega
      rw [h2]
      rfl
    rw [h1]
    by_cases hc : c = '.'
    · subst hc
      rw [fnmatchF_star cs _ (by omega)]
      simp
    · have hc2 : ¬ (('.' : Char) = c) := fun hh => hc hh.symm
      simp [hc, hc2]

theorem isDirNode_of_isRealDir (n : Node) (h : isRealDir n = true) : isDirNode n = true := by
  cases n <;> simp_all [isRealDir, isDirNode]

theorem childNames_clean : ∀ d : Node, wfNode d = true →
    ∀ nm ∈ childNames d, cleanName nm = true := by
  intro d
  induction d with
  | file _ => intro _ nm hm; simp [childNames] at hm
  | symlink _ => intro _ nm hm; simp [childNames] at hm
  | dnil => intro _ nm hm; simp [childNames] at hm
  | dcons nm0 c r ihc ihr =>
    intro hwf nm hm
    rw [wfNode] at hwf
    simp only [Bool.and_eq_true] at hwf
    rw [childNames] at hm
    rcases List.mem_cons.mp hm with h | h
    · rw [h]; exact hwf.1.1.1.1
    · exact ihr hwf.2 nm h

theorem selNames_subset (bn : PyStr) : ∀ d : Node, ∀ nm ∈ selNames bn d,
    nm ∈ childNames d := by
  intro d
  induction d with
  | file _ => intro nm hm; simp [selNames] at hm
  | symlink _ => intro nm hm; simp [selNames] at hm
  | dnil => intro nm hm; simp [selNames] at hm
  | dcons nm0 c r ihc ihr =>
    intro nm hm
    rw [selNames] at hm
    rw [childNames]
    by_cases hc : (matchesPat bn nm0 && isFileNode c) = true
    · rw [if_pos hc] at hm
      rcases List.mem_cons.mp hm with h | h
      · rw [h]; exact List.mem_cons_self _ _
      · exact List.mem_cons_of_mem _ (ihr nm h)
    · rw [if_neg hc] at hm
      exact List.mem_cons_of_mem _ (ihr nm hm)

theorem cleanName_head_ne_slash (nm : PyStr) (h : cleanName nm = true) :
    nm.head? ≠ some '/' := by
  rcases cleanName_spec nm h with ⟨hne, hns, -, -⟩
  cases nm with
  | nil => simp
  | cons c l =>
    simp only [List.head?_cons]
    intro hc
    injection hc with hc
    rw [hc] at hns
    exact hns (List.mem_cons_self '/' l)

theorem contains_append_right (a b : PyStr) (ch : Char) (h : b.contains ch = true) :
    (a ++ '/' :: b).contains ch = true := by
  have hm : ch ∈ b := by simpa using h
  have h2 : ch ∈ a ++ '/' :: b := List.mem_append_right a (List.mem_cons_of_mem '/' hm)
  simpa using h2

theorem hasMagic_append_basename (a bn : PyStr) (h : hasMagic bn = true) :
    hasMagic (a ++ '/' :: bn) = true := by
  unfold hasMagic at h ⊢
  cases h1 : bn.contains '*' with
  | true => rw [contains_append_right a bn '*' h1]; rfl
  | false =>
    cases h2 : bn.contains '?' with
    | true => rw [contains_append_right a bn '?' h2]; simp
    | false =>
      cases h3 : bn.contains '[' with
      | true => rw [contains_append_right a bn '[' h3]; simp
      | false =>
        rw [h1, h2, h3] at h
        exact absurd h (by simp)

theorem isdirStr_render (fs : Fs) (cs : List PyStr) (d : Node)
    (hclean : cleanComps cs = true) (hres : resolve fs.root cs = some d)
    (hreal : isRealDir d = true) : isdirStr fs (renderAbs cs) = true := by
  unfold isdirStr resolveStr
  rw [if_neg (show ¬ renderAbs cs = [] by unfold renderAbs; simp)]
  rw [strToComps_render fs cs hclean, hres]
  exact isDirNode_of_isRealDir d hreal

theorem isfileStr_render_name (fs : Fs) (cs : List PyStr) (nm : PyStr) (d : Node)
    (hne : cs ≠ []) (hclean : cleanComps cs = true) (hnm : cleanName nm = true)
    (hres : resolve fs.root cs = some d) :
    isfileStr fs (renderAbs cs ++ '/' :: nm) =
      (match lookupChild d nm with
       | some c => isFileNode c
       | none => false) := by
  unfold isfileStr resolveStr
  rw [if_neg (show ¬ renderAbs cs ++ '/' :: nm = [] by unfold renderAbs; simp)]
  rw [strToComps_render_name fs cs nm hne hclean hnm, resolve_append cs nm fs.root, hres]
  rfl

theorem splitLast_append_one : ∀ (cs : List PyStr) (nm : PyStr),
    splitLast (cs ++ [nm]) = some (cs, nm) := by
  intro cs nm
  induction cs with
  | nil => rfl
  | cons x xs ih =>
    have h1 : (x :: xs) ++ [nm] = x :: (xs ++ [nm]) := rfl
    cases hxs : xs ++ [nm] with
    | nil => exact absurd hxs (by simp)
    | cons y ys =>
      rw [h1, hxs, splitLast, ← hxs, ih]

theorem resolve_setNodeAt (p : List PyStr) (root d m : Node)
    (h : resolve root p = some d) : resolve (setNodeAt root p m) p = some m := by
  induction p generalizing root d with
  | nil => simp [setNodeAt, resolve]
  | cons s rest ih =>
    induction root with
    | file fd => simp [resolve, lookupChild] at h
    | symlink t => simp [resolve, lookupChild] at h
    | dnil => simp [resolve, lookupChild] at h
    | dcons nm c r ihc ihr =>
      by_cases hs : nm = s
      · subst hs
        rw [resolve, lookupChild, if_pos rfl] at h
        rw [setNodeAt, if_pos rfl, resolve, lookupChild, if_pos rfl]
        exact ih c d h
      · rw [resolve, lookupChild, if_neg hs] at h
        rw [setNodeAt, if_neg hs, resolve, lookupChild, if_neg hs]
        have := ihr (by rw [resolve]; exact h)
        rw [resolve] at this
        exact this

theorem setNodeAt_self (p : List PyStr) (root d : Node)
    (h : resolve root p = some d) : setNodeAt root p d = root := by
  induction p generalizing root d with
  | nil =>
    rw [resolve] at h
    rw [setNodeAt]
    exact (Option.some_inj.mp h).symm
  | cons s rest ih =>
    induction root with
    | file fd => simp [resolve, lookupChild] at h
    | symlink t => simp [resolve, lookupChild] at h
    | dnil => simp [resolve, lookupChild] at h
    | dcons nm c r ihc ihr =>
      by_cases hs : nm = s
      · subst hs
        rw [resolve, lookupChild, if_pos rfl] at h
        rw [setNodeAt, if_pos rfl, ih c d h]
      · rw [resolve, lookupChild, if_neg hs] at h
        rw [setNodeAt, if_neg hs]
        have := ihr (by rw [resolve]; exact h)
        rw [this]

theorem osRemoveStr_render_name (fs : Fs) (cs : List PyStr)
    (nm : PyStr) (d : Node) (hne : cs ≠ []) (hclean : cleanComps cs = true)
    (hnm : cleanName nm = true) (hres : resolve fs.root cs = some d) :
    osRemoveStr fs (renderAbs cs ++ '/' :: nm) =
      (delFileEntry nm d).map (fun d2 => (⟨setNodeAt fs.root cs d2, fs.cwd⟩ : Fs)) := by
  unfold osRemoveStr
  rw [if_neg (show ¬ renderAbs cs ++ '/' :: nm = [] by unfold renderAbs; simp)]
  rw [strToComps_render_name fs cs nm hne hclean hnm]
  rw [splitLast_append_one cs nm]
  show (match resolve fs.root cs with
        | some d0 =>
          (delFileEntry nm d0).map (fun d2 => ({ fs with root := setNodeAt fs.root cs d2 } : Fs))
        | none => none) =
       (delFileEntry nm d).map (fun d2 => (⟨setNodeAt fs.root cs d2, fs.cwd⟩ : Fs))
  rw [hres]

theorem deleteLoop_render (cs : List PyStr)
    (hne : cs ≠ []) (hclean : cleanComps cs = true) :
    ∀ (names : List PyStr) (fs : Fs) (d : Node), resolve fs.root cs = some d →
      (∀ nm ∈ names, cleanName nm = true) →
      deleteLoop fs (names.map (fun nm => renderAbs cs ++ '/' :: nm)) =
        (⟨setNodeAt fs.root cs (foldDel d names).1, fs.cwd⟩, (foldDel d names).2) := by
  intro names
  induction names with
  | nil =>
    intro fs d hres _
    simp only [List.map_nil, deleteLoop, foldDel]
    rw [setNodeAt_self cs fs.root d hres]
  | cons nm rest ih =>
    intro fs d hres hcl
    simp only [List.map_cons, deleteLoop]
    rw [osRemoveStr_render_name fs cs nm d hne hclean
      (hcl nm (List.mem_cons_self nm rest)) hres]
    cases hdel : delFileEntry nm d with
    | some d2 =>
      simp only [Option.map_some']
      rw [ih ⟨setNodeAt fs.root cs d2, fs.cwd⟩ d2 (resolve_setNodeAt cs fs.root d d2 hres)
        (fun nm2 h2 => hcl nm2 (List.mem_cons_of_mem nm h2))]
      simp only []
      rw [setNodeAt_setNodeAt cs d2 (foldDel d2 rest).1 fs.root]
      rw [show foldDel d (nm :: rest) = foldDel d2 rest from by rw [foldDel, hdel]]
    | none =>
      simp only [Option.map_none']
      rw [ih fs d hres (fun nm2 h2 => hcl nm2 (List.mem_cons_of_mem nm h2))]
      rw [show foldDel d (nm :: rest) = ((foldDel d rest).1, false) from by
        rw [foldDel, hdel]]

theorem foldDel_skip_head (nm0 : PyStr) (c0 : Node) :
    ∀ (names : List PyStr) (r : Node), (∀ nm ∈ names, nm0 ≠ nm) →
      foldDel (Node.dcons nm0 c0 r) names =
        (Node.dcons nm0 c0 (foldDel r names).1, (foldDel r names).2) := by
  intro names
  induction names with
  | nil => intro r _; rfl
  | cons nm rest ih =>
    intro r hne
    have hne0 : ¬ nm0 = nm := hne nm (List.mem_cons_self nm rest)
    have hd : delFileEntry nm (Node.dcons nm0 c0 r) =
        (delFileEntry nm r).map (fun r2 => Node.dcons nm0 c0 r2) := by
      cases c0 <;> simp [delFileEntry, hne0]
    rw [foldDel, hd]
    cases hdr : delFileEntry nm r with
    | some r2 =>
      simp only [Option.map_some']
      rw [ih r2 (fun nm2 h2 => hne nm2 (List.mem_cons_of_mem nm h2))]
      rw [show foldDel r (nm :: rest) = foldDel r2 rest from by rw [foldDel, hdr]]
    | none =>
      simp only [Option.map_none']
      rw [ih r (fun nm2 h2 => hne nm2 (List.mem_cons_of_mem nm h2))]
      rw [show foldDel r (nm :: rest) = ((foldDel r rest).1, false) from by
        rw [foldDel, hdr]]

theorem contains_false_ne (l : List PyStr) (nm0 : PyStr)
    (h : l.contains nm0 = false) : ∀ nm ∈ l, nm0 ≠ nm := by
  intro nm hm heq
  rw [heq] at h
  have : l.contains nm = true := by simpa using hm
  rw [this] at h
  exact absurd h (by simp)

theorem foldDel_selNames (bn : PyStr) : ∀ d : Node, wfNode d = true →
    foldDel d (selNames bn d) = (spineDelete bn d, spineOk bn d) := by
  intro d
  induction d with
  | file _ => intro _; rfl
  | symlink _ => intro _; rfl
  | dnil => intro _; rfl
  | dcons nm c r ihc ihr =>
    intro hwf
    rw [wfNode] at hwf
    simp only [Bool.and_eq_true] at hwf
    have hnotin : ∀ nm2 ∈ childNames r, nm ≠ nm2 := by
      apply contains_false_ne
      have h2 : ¬ (childNames r).contains nm = true := by simpa using hwf.1.1.1.2
      exact Bool.eq_false_iff.mpr h2
    have hskip : ∀ nm2 ∈ selNames bn r, nm ≠ nm2 :=
      fun nm2 h2 => hnotin nm2 (selNames_subset bn r nm2 h2)
    by_cases hm : (matchesPat bn nm && isFileNode c) = true
    · rw [show selNames bn (Node.dcons nm c r) = nm :: selNames bn r from by
        rw [selNames, if_pos hm]]
      have hf : isFileNode c = true := (Bool.and_eq_true_iff.mp hm).2
      cases c with
      | dnil => simp [isFileNode] at hf
      | dcons a b e => simp [isFileNode] at hf
      | symlink t =>
        cases t with
        | toDir => simp [isFileNode] at hf
        | broken => simp [isFileNode] at hf
        | toFile =>
          have hd : delFileEntry nm (Node.dcons nm (Node.symlink SymTarget.toFile) r) =
              some r := by simp [delFileEntry]
          rw [show foldDel (Node.dcons nm (Node.symlink SymTarget.toFile) r)
              (nm :: selNames bn r) = foldDel r (selNames bn r) from by
            rw [foldDel, hd]]
          rw [ihr hwf.2]
          rw [show spineDelete bn (Node.dcons nm (Node.symlink SymTarget.toFile) r) =
              spineDelete bn r from by
            rw [spineDelete, if_pos (by rw [hm]; rfl)]]
          rw [show spineOk bn (Node.dcons nm (Node.symlink SymTarget.toFile) r) =
              spineOk bn r from by
            rw [spineOk, hm]
            simp [leafRemovable]]
      | file del =>
        cases del with
        | true =>
          have hd : delFileEntry nm (Node.dcons nm (Node.file true) r) = some r := by
            simp [delFileEntry]
          rw [show foldDel (Node.dcons nm (Node.file true) r) (nm :: selNames bn r) =
              foldDel r (selNames bn r) from by
            rw [foldDel, hd]]
          rw [ihr hwf.2]
          rw [show spineDelete bn (Node.dcons nm (Node.file true) r) =
              spineDelete bn r from by
            rw [spineDelete, if_pos (by rw [hm]; rfl)]]
          rw [show spineOk bn (Node.dcons nm (Node.file true) r) = spineOk bn r from by
            rw [spineOk, hm]
            simp [leafRemovable]]
        | false =>
          have hd : delFileEntry nm (Node.dcons nm (Node.file false) r) = none := by
            simp [delFileEntry]
          rw [show foldDel (Node.dcons nm (Node.file false) r) (nm :: selNames bn r) =
              ((foldDel (Node.dcons nm (Node.file false) r) (selNames bn r)).1, false)
              from by rw [foldDel, hd]]
          rw [foldDel_skip_head nm (Node.file false) (selNames bn r) r hskip]
          rw [ihr hwf.2]
          rw [show spineDelete bn (Node.dcons nm (Node.file false) r) =
              Node.dcons nm (Node.file false) (spineDelete bn r) from by
            rw [spineDelete, if_neg (by rw [hm]; simp [leafRemovable])]]
          rw [show spineOk bn (Node.dcons nm (Node.file false) r) = false from by
            rw [spineOk, hm]
            simp [leafRemovable]]
    · rw [show selNames bn (Node.dcons nm c r) = selNames bn r from by
        rw [selNames, if_neg hm]]
      rw [foldDel_skip_head nm c (selNames bn r) r hskip]
      rw [ihr hwf.2]
      have hmf : (matchesPat bn nm && isFileNode c) = false := by
        rw [Bool.eq_false_iff]
        exact hm
      rw [show spineDelete bn (Node.dcons nm c r) =
          Node.dcons nm c (spineDelete bn r) from by
        rw [spineDelete, if_neg (by rw [hmf]; simp)]]
      rw [show spineOk bn (Node.dcons nm c r) = spineOk bn r from by
        rw [spineOk, hmf]
        simp]

theorem glob_filter_eq (bn : PyStr) (names : List PyStr) :
    ((if bn.head? = some '.' then names
      else names.filter (fun nm => nm.head? ≠ some '.')).filter
        (fun nm => fnmatchW bn nm)) =
      names.filter (fun nm => matchesPat bn nm) := by
  by_cases hd : bn.head? = some '.'
  · rw [if_pos hd]
    apply List.filter_congr
    intro nm _
    unfold matchesPat
    rw [show (decide (bn.head? = some '.')) = true by simp [hd]]
    simp
  · rw [if_neg hd]
    rw [List.filter_filter]
    apply List.filter_congr
    intro nm _
    unfold matchesPat
    rw [show (decide (bn.head? = some '.')) = false by simp [hd]]
    simp [Bool.and_comm]

theorem filter_lookup_selNames_aux (bn : PyStr) (d : Node) : ∀ s : Node,
    wfNode s = true →
    (∀ nm ∈ childNames s, lookupChild d nm = lookupChild s nm) →
    ((childNames s).filter (fun nm => matchesPat bn nm)).filter
        (fun nm => match lookupChild d nm with
                   | some c => isFileNode c
                   | none => false) = selNames bn s := by
  intro s
  induction s with
  | file _ => intro _ _; rfl
  | symlink _ => intro _ _; rfl
  | dnil => intro _ _; rfl
  | dcons nm0 c r ihc ihr =>
    intro hwf hlk
    rw [wfNode] at hwf
    simp only [Bool.and_eq_true] at hwf
    have hlk0 : lookupChild d nm0 = some c := by
      rw [hlk nm0 (by rw [childNames]; exact List.mem_cons_self _ _)]
      rw [lookupChild, if_pos rfl]
    have hnotin : ∀ nm2 ∈ childNames r, nm0 ≠ nm2 := by
      apply contains_false_ne
      have h2 : ¬ (childNames r).contains nm0 = true := by simpa using hwf.1.1.1.2
      exact Bool.eq_false_iff.mpr h2
    have hlkr : ∀ nm ∈ childNames r, lookupChild d nm = lookupChild r nm := by
      intro nm hm
      rw [hlk nm (by rw [childNames]; exact List.mem_cons_of_mem _ hm)]
      rw [lookupChild, if_neg (hnotin nm hm)]
    have hrec := ihr hwf.2 hlkr
    rw [childNames, List.filter_cons]
    by_cases hm : matchesPat bn nm0 = true
    · rw [if_pos (by rw [hm])]
      rw [List.filter_cons]
      by_cases hfc : isFileNode c = true
      · rw [if_pos (by rw [hlk0]; exact hfc)]
        rw [hrec]
        rw [show selNames bn (Node.dcons nm0 c r) = nm0 :: selNames bn r from by
          rw [selNames, if_pos (by rw [hm, hfc]; rfl)]]
      · rw [if_neg (by rw [hlk0]; simp [hfc])]
        rw [hrec]
        rw [show selNames bn (Node.dcons nm0 c r) = selNames bn r from by
          rw [selNames, if_neg (by simp [hfc])]]
    · rw [if_neg (by simp [hm])]
      rw [hrec]
      rw [show selNames bn (Node.dcons nm0 c r) = selNames bn r from by
        rw [selNames, if_neg (by simp [hm])]]

theorem filter_lookup_selNames (bn : PyStr) (d : Node) (hwf : wfNode d = true) :
    ((childNames d).filter (fun nm => matchesPat bn nm)).filter
        (fun nm => match lookupChild d nm with
                   | some c => isFileNode c
                   | none => false) = selNames bn d :=
  filter_lookup_selNames_aux bn d d hwf (fun _ _ => rfl)

theorem resolveStr_render (fs : Fs) (cs : List PyStr) (hclean : cleanComps cs = true) :
    resolveStr fs (renderAbs cs) = resolve fs.root cs := by
  unfold resolveStr
  rw [if_neg (show ¬ renderAbs cs = [] by unfold renderAbs; simp)]
  rw [strToComps_render fs cs hclean]

theorem globModel_render (fs : Fs) (cs : List PyStr) (bn : PyStr) (d : Node)
    (hne : cs ≠ []) (hclean : cleanComps cs = true)
    (hres : resolve fs.root cs = some d) (hreal : isRealDir d = true)
    (hwfd : wfNode d = true) (hbns : '/' ∉ bn) (hmagic : hasMagic bn = true) :
    globModel fs (renderAbs cs ++ '/' :: bn) =
      ((childNames d).filter (fun nm => matchesPat bn nm)).map
        (fun nm => renderAbs cs ++ '/' :: nm) := by
  have hPmagic : hasMagic (renderAbs cs ++ '/' :: bn) = true :=
    hasMagic_append_basename (renderAbs cs) bn hmagic
  rcases pyDirname_render_pattern cs bn hne hclean hbns with ⟨hdn, hbn⟩
  have hRne : renderAbs cs ≠ [] := by unfold renderAbs; simp
  unfold globModel
  rw [if_neg (not_not_intro hPmagic), hdn, hbn]
  simp only [hmagic, if_true, reduceIte]
  rw [if_neg hRne, resolveStr_render fs cs hclean, hres]
  simp only [hreal, if_true, reduceIte]
  rw [glob_filter_eq bn (childNames d)]
  apply List.map_eq_map_iff.mpr
  intro nm hm
  rw [if_neg hRne]
  have hnmcl : cleanName nm = true :=
    childNames_clean d hwfd nm (List.mem_of_mem_filter hm)
  exact pyJoin_render cs nm hne hclean (cleanName_head_ne_slash nm hnmcl)

/-- The deletion pass of `remove` over a well-formed pattern `D/bn` with a
literal existing directory `D` and a wildcard final segment `bn`: the result
is the spine after removing every matched file-like deletable entry, with the
aggregate flag false exactly when a matched file-like entry resisted. -/
theorem remove_render_pattern (fs : Fs) (cs : List PyStr) (bn : PyStr) (d : Node)
    (hwf : wfNode fs.root = true) (hne : cs ≠ []) (hclean : cleanComps cs = true)
    (hres : resolve fs.root cs = some d) (hreal : isRealDir d = true)
    (hbns : '/' ∉ bn) (hmagic : hasMagic bn = true) :
    remove fs (renderAbs cs ++ '/' :: bn) =
      Except.ok (⟨setNodeAt fs.root cs (spineDelete bn d), fs.cwd⟩, spineOk bn d) := by
  have hwfd : wfNode d = true := wf_resolve cs fs.root d hwf hres
  rcases pyDirname_render_pattern cs bn hne hclean hbns with ⟨hdn, hbn⟩
  have hdir : isdirStr fs (renderAbs cs) = true := isdirStr_render fs cs d hclean hres hreal
  unfold remove
  rw [hdn]
  rw [if_neg (by rw [hdir]; simp)]
  rw [globModel_render fs cs bn d hne hclean hres hreal hwfd hbns hmagic]
  rw [List.filter_map]
  have hflt : ((childNames d).filter (fun nm => matchesPat bn nm)).filter
      ((fun m => isfileStr fs m) ∘ fun nm => renderAbs cs ++ '/' :: nm) = selNames bn d := by
    rw [List.filter_congr (fun nm hm => ?_)]
    · exact filter_lookup_selNames bn d hwfd
    · have hnmcl : cleanName nm = true :=
        childNames_clean d hwfd nm (List.mem_of_mem_filter hm)
      exact isfileStr_render_name fs cs nm d hne hclean hnmcl hres
  rw [hflt]
  have hclnames : ∀ nm ∈ selNames bn d, cleanName nm = true :=
    fun nm hm => childNames_clean d hwfd nm (selNames_subset bn d nm hm)
  show Except.ok
      (deleteLoop fs (List.map (fun nm => renderAbs cs ++ '/' :: nm) (selNames bn d))) =
    Except.ok ((⟨setNodeAt fs.root cs (spineDelete bn d), fs.cwd⟩ : Fs), spineOk bn d)
  rw [deleteLoop_render cs hne hclean (selNames bn d) fs d hres hclnames]
  rw [foldDel_selNames bn d hwfd]

theorem lookupChild_mem_names : ∀ (n : Node) (s : PyStr) (c : Node),
    lookupChild n s = some c → s ∈ childNames n := by
  intro n
  induction n with
  | file _ => intro s c h; simp [lookupChild] at h
  | symlink _ => intro s c h; simp [lookupChild] at h
  | dnil => intro s c h; simp [lookupChild] at h
  | dcons nm ch r ihc ihr =>
    intro s c h
    rw [lookupChild] at h
    rw [childNames]
    by_cases hs : nm = s
    · rw [hs]; exact List.mem_cons_self _ _
    · rw [if_neg hs] at h
      exact List.mem_cons_of_mem _ (ihr s c h)

theorem lookupChild_none_of_not_mem : ∀ (n : Node) (s : PyStr),
    s ∉ childNames n → lookupChild n s = none := by
  intro n
  induction n with
  | file _ => intro s _; rfl
  | symlink _ => intro s _; rfl
  | dnil => intro s _; rfl
  | dcons nm ch r ihc ihr =>
    intro s hm
    rw [childNames] at hm
    rw [lookupChild, if_neg (fun hh => hm (by rw [hh]; exact List.mem_cons_self _ _))]
    exact ihr s (fun h2 => hm (List.mem_cons_of_mem _ h2))

theorem mem_names_spineDelete (bn : PyStr) : ∀ d : Node, ∀ nm ∈ childNames (spineDelete bn d),
    nm ∈ childNames d := by
  intro d
  induction d with
  | file _ => intro nm hm; exact hm
  | symlink _ => intro nm hm; exact hm
  | dnil => intro nm hm; exact hm
  | dcons nm0 c r ihc ihr =>
    intro nm hm
    rw [childNames]
    by_cases hc : (matchesPat bn nm0 && isFileNode c && leafRemovable c) = true
    · rw [spineDelete, if_pos hc] at hm
      exact List.mem_cons_of_mem _ (ihr nm hm)
    · rw [spineDelete, if_neg hc, childNames] at hm
      rcases List.mem_cons.mp hm with h | h
      · rw [h]; exact List.mem_cons_self _ _
      · exact List.mem_cons_of_mem _ (ihr nm h)

theorem isRealDir_spineDelete (bn : PyStr) : ∀ d : Node, wfNode d = true →
    isRealDir d = true → isRealDir (spineDelete bn d) = true := by
  intro d
  induction d with
  | file _ => intro _ hr; exact hr
  | symlink _ => intro _ hr; exact hr
  | dnil => intro _ _; rfl
  | dcons nm0 c r ihc ihr =>
    intro hwf _
    rw [wfNode] at hwf
    simp only [Bool.and_eq_true] at hwf
    by_cases hc : (matchesPat bn nm0 && isFileNode c && leafRemovable c) = true
    · rw [spineDelete, if_pos hc]
      exact ihr hwf.2 hwf.1.1.2
    · rw [spineDelete, if_neg hc]
      rfl

theorem wf_spineDelete (bn : PyStr) : ∀ d : Node, wfNode d = true →
    wfNode (spineDelete bn d) = true := by
  intro d
  induction d with
  | file _ => intro h; exact h
  | symlink _ => intro h; exact h
  | dnil => intro h; exact h
  | dcons nm0 c r ihc ihr =>
    intro hwf
    rw [wfNode] at hwf
    simp only [Bool.and_eq_true] at hwf
    by_cases hc : (matchesPat bn nm0 && isFileNode c && leafRemovable c) = true
    · rw [spineDelete, if_pos hc]
      exact ihr hwf.2
    · rw [spineDelete, if_neg hc, wfNode]
      simp only [Bool.and_eq_true]
      refine ⟨⟨⟨⟨hwf.1.1.1.1, ?_⟩, ?_⟩, hwf.1.2⟩, ihr hwf.2⟩
      · have h2 : ¬ (childNames r).contains nm0 = true := by simpa using hwf.1.1.1.2
        have h3 : nm0 ∉ childNames (spineDelete bn r) := by
          intro hmem
          have h4 : (childNames r).contains nm0 = true := by
            simpa using mem_names_spineDelete bn r nm0 hmem
          exact h2 h4
        simpa using h3
      · exact isRealDir_spineDelete bn r hwf.2 hwf.1.1.2

theorem lookup_spineDelete_of_none (bn : PyStr) : ∀ d : Node, ∀ nm : PyStr,
    lookupChild d nm = none → lookupChild (spineDelete bn d) nm = none := by
  intro d
  induction d with
  | file _ => intro nm h; exact h
  | symlink _ => intro nm h; exact h
  | dnil => intro nm h; exact h
  | dcons nm0 c r ihc ihr =>
    intro nm h
    rw [lookupChild] at h
    by_cases hs : nm0 = nm
    · rw [if_pos hs] at h; exact absurd h (by simp)
    · rw [if_neg hs] at h
      by_cases hc : (matchesPat bn nm0 && isFileNode c && leafRemovable c) = true
      · rw [spineDelete, if_pos hc]
        exact ihr nm h
      · rw [spineDelete, if_neg hc, lookupChild, if_neg hs]
        exact ihr nm h

theorem lookup_spineDelete_none (bn : PyStr) : ∀ d : Node, wfNode d = true →
    ∀ nm c, lookupChild d nm = some c → matchesPat bn nm = true →
      isFileNode c = true → leafRemovable c = true →
      lookupChild (spineDelete bn d) nm = none := by
  intro d
  induction d with
  | file _ => intro _ nm c h; simp [lookupChild] at h
  | symlink _ => intro _ nm c h; simp [lookupChild] at h
  | dnil => intro _ nm c h; simp [lookupChild] at h
  | dcons nm0 c0 r ihc ihr =>
    intro hwf nm c h hm hf hl
    rw [wfNode] at hwf
    simp only [Bool.and_eq_true] at hwf
    rw [lookupChild] at h
    by_cases hs : nm0 = nm
    · rw [if_pos hs] at h
      cases h
      have hc : (matchesPat bn nm0 && isFileNode c0 && leafRemovable c0) = true := by
        rw [hs, hm, hf, hl]
        rfl
      rw [spineDelete, if_pos hc]
      apply lookup_spineDelete_of_none
      apply lookupChild_none_of_not_mem
      intro hmem
      have h2 : ¬ (childNames r).contains nm0 = true := by simpa using hwf.1.1.1.2
      rw [hs] at h2
      exact h2 (by simpa using hmem)
    · rw [if_neg hs] at h
      by_cases hc : (matchesPat bn nm0 && isFileNode c0 && leafRemovable c0) = true
      · rw [spineDelete, if_pos hc]
        exact ihr hwf.2 nm c h hm hf hl
      · rw [spineDelete, if_neg hc, lookupChild, if_neg hs]
        exact ihr hwf.2 nm c h hm hf hl

theorem lookup_spineDelete_preserved (bn : PyStr) : ∀ d : Node, ∀ nm c,
    lookupChild d nm = some c →
    (matchesPat bn nm && isFileNode c && leafRemovable c) = false →
    lookupChild (spineDelete bn d) nm = some c := by
  intro d
  induction d with
  | file _ => intro nm c h; simp [lookupChild] at h
  | symlink _ => intro nm c h; simp [lookupChild] at h
  | dnil => intro nm c h; simp [lookupChild] at h
  | dcons nm0 c0 r ihc ihr =>
    intro nm c h hcond
    rw [lookupChild] at h
    by_cases hs : nm0 = nm
    · rw [if_pos hs] at h
      cases h
      have hc : ¬ (matchesPat bn nm0 && isFileNode c0 && leafRemovable c0) = true := by
        rw [hs, hcond]
        simp
      rw [spineDelete, if_neg hc, lookupChild, if_pos hs]
    · rw [if_neg hs] at h
      by_cases hc : (matchesPat bn nm0 && isFileNode c0 && leafRemovable c0) = true
      · rw [spineDelete, if_pos hc]
        exact ihr nm c h hcond
      · rw [spineDelete, if_neg hc, lookupChild, if_neg hs]
        exact ihr nm c h hcond

theorem spineOk_iff (bn : PyStr) : ∀ d : Node, wfNode d = true →
    (spineOk bn d = true ↔
      ∀ nm c, lookupChild d nm = some c → matchesPat bn nm = true →
        isFileNode c = true → leafRemovable c = true) := by
  intro d
  induction d with
  | file _ =>
    intro _
    constructor
    · intro _ nm c h; simp [lookupChild] at h
    · intro _; rfl
  | symlink _ =>
    intro _
    constructor
    · intro _ nm c h; simp [lookupChild] at h
    · intro _; rfl
  | dnil =>
    intro _
    constructor
    · intro _ nm c h; simp [lookupChild] at h
    · intro _; rfl
  | dcons nm0 c0 r ihc ihr =>
    intro hwf
    rw [wfNode] at hwf
    simp only [Bool.and_eq_true] at hwf
    rw [spineOk, Bool.and_eq_true]
    constructor
    · intro hok nm c h hm hf
      rw [lookupChild] at h
      by_cases hs : nm0 = nm
      · rw [if_pos hs] at h
        cases h
        rcases Bool.or_eq_true_iff.mp hok.1 with h2 | h2
        · rw [hs, hm, hf] at h2
          exact absurd h2 (by simp)
        · exact h2
      · rw [if_neg hs] at h
        exact (ihr hwf.2).mp hok.2 nm c h hm hf
    · intro hall
      constructor
      · by_cases hmf : (matchesPat bn nm0 && isFileNode c0) = true
        · have hl := hall nm0 c0 (by rw [lookupChild, if_pos rfl])
            (Bool.and_eq_true_iff.mp hmf).1 (Bool.and_eq_true_iff.mp hmf).2
          rw [hl]
          simp
        · rw [Bool.eq_false_iff.mpr hmf]
          simp
      · apply (ihr hwf.2).mpr
        intro nm c h hm hf
        have hs : nm0 ≠ nm := by
          intro hh
          have hmemr : nm ∈ childNames r := lookupChild_mem_names r nm c h
          have h2 : ¬ (childNames r).contains nm0 = true := by simpa using hwf.1.1.1.2
          rw [hh] at h2
          exact h2 (by simpa using hmemr)
        exact hall nm c (by rw [lookupChild, if_neg hs]; exact h) hm hf

theorem selNames_nil_spine (bn : PyStr) : ∀ d : Node, selNames bn d = [] →
    spineDelete bn d = d ∧ spineOk bn d = true := by
  intro d
  induction d with
  | file _ => intro _; exact ⟨rfl, rfl⟩
  | symlink _ => intro _; exact ⟨rfl, rfl⟩
  | dnil => intro _; exact ⟨rfl, rfl⟩
  | dcons nm0 c0 r ihc ihr =>
    intro hsel
    rw [selNames] at hsel
    by_cases hmf : (matchesPat bn nm0 && isFileNode c0) = true
    · rw [if_pos hmf] at hsel
      exact absurd hsel (by simp)
    · rw [if_neg hmf] at hsel
      rcases ihr hsel with ⟨h1, h2⟩
      constructor
      · rw [spineDelete, if_neg (by rw [Bool.eq_false_iff.mpr hmf]; simp), h1]
      · rw [spineOk, Bool.eq_false_iff.mpr hmf, h2]
        simp

theorem matchesPat_star (nm : PyStr) :
    matchesPat (pys "*") nm = true ↔ ¬ nm.head? = some '.' := by
  unfold matchesPat
  rw [show fnmatchW (pys "*") nm = true from fnmatchW_star nm]
  rw [show (decide ((pys "*").head? = some '.')) = false from by decide]
  simp

theorem matchesPat_dotstar (nm : PyStr) :
    matchesPat (pys ".*") nm = true ↔ nm.head? = some '.' := by
  unfold matchesPat
  rw [show (decide ((pys ".*").head? = some '.')) = true from by decide]
  have h2 : fnmatchW (pys ".*") nm = fnmatchW ['.', '*'] nm := rfl
  rw [h2]
  rw [Bool.true_or, Bool.true_and]
  exact fnmatchW_dotstar nm

theorem isdirStr_eq_false_of_isfileStr (fs : Fs) (p : PyStr)
    (h : isfileStr fs p = true) : isdirStr fs p = false := by
  unfold isfileStr at h
  unfold isdirStr
  cases hr : resolveStr fs p with
  | none => simp [hr] at h
  | some n =>
    rw [hr] at h
    cases n with
    | file d => rfl
    | symlink t => cases t <;> simp_all [isFileNode, isDirNode]
    | dnil => simp [isFileNode] at h
    | dcons nm c r => simp [isFileNode] at h

/-- Claim C10: for every path that names an existing regular file (not a
directory), `rmdir(path, silent)` returns true without raising, for either
silent setting, and the filesystem (hence the file) is unchanged. -/
theorem rmdir_on_file_is_noop (fs : Fs) (p : PyStr) (silent : Bool)
    (h : isfileStr fs p = true) :
    rmdir fs p silent = Except.ok (fs, true) := by
  unfold rmdir
  rw [isdirStr_eq_false_of_isfileStr fs p h]
  simp

/-- Witness for C10 at a concrete filesystem holding a single file `f`. -/
theorem rmdir_on_file_is_noop_witness :
    isfileStr exC10fs (pys "f") = true ∧
    rmdir exC10fs (pys "f") false = Except.ok (exC10fs, true) :=
  ⟨by decide, rmdir_on_file_is_noop exC10fs (pys "f") false (by decide)⟩

/-- Claim C1 (the code, evaluated): when the target is an existing directory,
the purge-free call succeeds, but any call with a purge scope raises: the
purge branch runs `os.content.remove(path)` / `os.files.remove(path)` and the
standard `os` module has no attributes `content` or `files`, so an
`AttributeError` is raised and no purge ever happens — contradicting the
claim and the docstrings of `mkdir`/`makedirs` ("raises no error if directory
already exists", purge "will remove ... content"). -/
theorem mkdir_purge_raises_attribute_error (fs : Fs) (path : PyStr) (s : PurgeArg)
    (h : isdirStr fs path = true) :
    mkdir fs path none = Except.ok fs ∧
    makedirs fs path none = Except.ok fs ∧
    mkdir fs path (some s) = Except.error Err.attributeError ∧
    makedirs fs path (some s) = Except.error Err.attributeError := by
  unfold mkdir makedirs mkdirCore
  rw [h]
  simp

/-- Witness for C1's evaluation: an existing directory `/D`, purge `True`. -/
theorem mkdir_purge_raises_attribute_error_witness :
    isdirStr exC1fs (pys "/D") = true ∧
    (mkdir exC1fs (pys "/D") none = Except.ok exC1fs ∧
     makedirs exC1fs (pys "/D") none = Except.ok exC1fs ∧
     mkdir exC1fs (pys "/D") (some PurgeArg.pTrue) = Except.error Err.attributeError ∧
     makedirs exC1fs (pys "/D") (some PurgeArg.pTrue) = Except.error Err.attributeError) :=
  ⟨by decide, mkdir_purge_raises_attribute_error exC1fs (pys "/D") PurgeArg.pTrue (by decide)⟩

/-- Claim C4: for every pattern whose directory component is non-empty and
does not name an existing directory, `remove` raises the missing-directory
error immediately (no deletion is attempted: the error is returned before
the match list is even computed, and the state is unchanged). -/
theorem remove_missing_directory_raises (fs : Fs) (P : PyStr)
    (h1 : pyDirname P ≠ []) (h2 : isdirStr fs (pyDirname P) = false) :
    remove fs P = Except.error (Err.nosuchdir (pyDirname P)) := by
  unfold remove
  rw [if_pos ⟨h1, by rw [h2]; exact Bool.false_ne_true⟩]

/-- Witness for C4: pattern `nope/*.txt` with no directory `nope`. -/
theorem remove_missing_directory_raises_witness :
    (pyDirname (pys "nope/*.txt") ≠ [] ∧ isdirStr exC4fs (pyDirname (pys "nope/*.txt")) = false) ∧
    remove exC4fs (pys "nope/*.txt") = Except.error (Err.nosuchdir (pyDirname (pys "nope/*.txt"))) :=
  ⟨⟨by decide, by decide⟩,
   remove_missing_directory_raises exC4fs (pys "nope/*.txt") (by decide) (by decide)⟩

/-- Claim C9 (the code, evaluated): with working directory `/w` (non-empty)
and the chain `a/b` entirely absent, `removedirs("a/b")` returns false, for
every fuel: the first `rmdir` succeeds vacuously, but the climb converts the
path to an absolute one via `justpath` (default `expanded=True`), reaches the
existing non-empty ancestor `/w`, whose `os.rmdir` raises, and the caught
`OSError` makes the function return false — although the whole path already
no longer exists, contradicting the claim and the docstring ("return True if
whole path no longer exists"). -/
theorem removedirs_absent_chain_returns_false : ∀ fuel : Nat,
    isdirStr exC9fs (pys "a/b") = false ∧ isdirStr exC9fs (pys "a") = false ∧
    lexistsStr exC9fs (pys "a/b") = false ∧ lexistsStr exC9fs (pys "a") = false ∧
    removedirs (fuel + 2) exC9fs (pys "a/b") [] false =
      some (Except.ok (exC9fs, false)) := by
  intro fuel
  refine ⟨by decide, by decide, by decide, by decide, ?_⟩
  rfl

/-- Counterexample to claim C8: `d.e` is an existing directory, yet
`juststem` returns `d` and `justext` returns `e`, not empty strings — the
existing-directory short-circuit is applied by `justpath`/`justname` only. -/
theorem juststem_justext_nonempty_on_directory :
    isdirStr exC8fs (pys "d.e") = true ∧
    juststem exC8fs (pys "d.e") = pys "d" ∧
    justext (pys "d.e") = pys "e" := by decide

/-- Claim C8 as amended: for every string naming an existing directory,
`justpath` returns the string itself (absolutized or normalized per the
`expanded` flag) and `justname` returns the empty string; but `juststem` and
`justext` do not probe the whole string for directory existence — `justext`
is empty exactly when the split-off extension is at most a bare dot, and
`juststem` is empty exactly when the extension-stripped string is an existing
directory or has an empty basename. -/
theorem justpath_family_on_directory (fs : Fs) (s : PyStr)
    (h : isdirStr fs s = true) :
    justpath fs s (some true) = pyAbspath fs s ∧
    justpath fs s (some false) = pyNormpath s ∧
    justname fs s = [] ∧
    (juststem fs s = [] ↔
      (isdirStr fs (pySplitext s).1 = true ∨ pyBasename (pySplitext s).1 = [])) ∧
    (justext s = [] ↔ (pySplitext s).2.length ≤ 1) := by
  refine ⟨?_, ?_, ?_, ?_, ?_⟩
  · unfold justpath; rw [h]; simp
  · unfold justpath; rw [h]; simp
  · unfold justname; rw [h]; simp
  · unfold juststem justname
    cases hd : isdirStr fs (pySplitext s).1 with
    | true => simp [hd]
    | false => simp [hd]
  · unfold justext
    rw [List.drop_eq_nil_iff]

theorem rmtreeSpine_deletable : ∀ n : Node, contentDeletable n = true →
    wfNode n = true → isRealDir n = true → rmtreeSpine n = (Node.dnil, true) := by
  intro n
  induction n with
  | file d => intro _ _ hreal; simp [isRealDir] at hreal
  | symlink t => intro _ _ hreal; simp [isRealDir] at hreal
  | dnil => intro _ _ _; rfl
  | dcons nm c r ihc ihr =>
    intro hdel hwf _
    rw [contentDeletable, Bool.and_eq_true] at hdel
    rcases hdel with ⟨hc, hr⟩
    rw [wfNode] at hwf
    simp only [Bool.and_eq_true] at hwf
    rcases hwf with ⟨⟨⟨⟨-, -⟩, hrr⟩, hwc⟩, hwr⟩
    cases c with
    | file d =>
      rw [contentDeletable] at hc
      simp only [rmtreeSpine, hc, if_true]
      exact ihr hr hwr hrr
    | symlink t => simp only [rmtreeSpine]; exact ihr hr hwr hrr
    | dnil =>
      simp only [rmtreeSpine]
      exact ihr hr hwr hrr
    | dcons nm2 c2 r2 =>
      simp only [rmtreeSpine]
      rw [ihc hc hwc rfl]
      simp only [if_true]
      exact ihr hr hwr hrr

theorem contentLoop_deletable (cwdS : PyStr) : ∀ (n : Node) (pathS : PyStr) (fuel : Nat),
    contentDeletable n = true → wfNode n = true → isRealDir n = true →
    spineLen n < fuel →
    contentLoop fuel cwdS pathS n = some (Except.ok (Node.dnil, true)) := by
  intro n
  induction n with
  | file d => intro _ _ _ _ hreal _; simp [isRealDir] at hreal
  | symlink t => intro _ _ _ _ hreal _; simp [isRealDir] at hreal
  | dnil =>
    intro pathS fuel _ _ _ hfuel
    cases fuel with
    | zero => exact absurd hfuel (by simp)
    | succ f => rfl
  | dcons nm c r ihc ihr =>
    intro pathS fuel hdel hwf _ hfuel
    rw [contentDeletable, Bool.and_eq_true] at hdel
    rcases hdel with ⟨hc, hr⟩
    rw [wfNode] at hwf
    simp only [Bool.and_eq_true] at hwf
    rcases hwf with ⟨⟨⟨⟨-, -⟩, hrr⟩, hwc⟩, hwr⟩
    cases fuel with
    | zero => exact absurd hfuel (by simp)
    | succ f =>
      have hf : spineLen r < f :=
        Nat.lt_of_succ_lt_succ (by simpa [spineLen] using hfuel)
      cases c with
      | file d =>
        rw [contentDeletable] at hc
        simp only [contentLoop, isDirNode, leafRemovable, hc, if_true, if_false,
          Bool.false_eq_true, reduceIte]
        exact ihr pathS f hr hwr hrr hf
      | symlink t =>
        cases t with
        | toDir => simp [contentDeletable] at hc
        | toFile =>
          simp only [contentLoop, isDirNode, leafRemovable]
          exact ihr pathS f hr hwr hrr hf
        | broken =>
          simp only [contentLoop, isDirNode, leafRemovable]
          exact ihr pathS f hr hwr hrr hf
      | dnil =>
        simp only [contentLoop, isDirNode, rmtreeAttempt]
        rw [rmtreeSpine_deletable Node.dnil hc hwc rfl]
        exact ihr pathS f hr hwr hrr hf
      | dcons nm2 c2 r2 =>
        simp only [contentLoop, isDirNode, rmtreeAttempt]
        rw [rmtreeSpine_deletable (Node.dcons nm2 c2 r2) hc hwc rfl]
        exact ihr pathS f hr hwr hrr hf

/-- Claim C2 as amended: for every existing directory target, the guard of
`Content.remove` is a plain string test, not an ancestor test — it raises
exactly when the path string equals `..`, or when the `getcwd()` string
starts with the path string and is strictly longer (which both misses real
ancestors written differently, e.g. relative, and mis-fires on non-ancestors
sharing a string prefix); when the string test is false the purge proceeds
(shown here for targets whose content deletes cleanly). -/
theorem content_remove_guard_is_string_test (fuel : Nat) (fs : Fs) (p : PyStr) (d : Node)
    (hdir : isdirStr fs p = true)
    (hres : resolve fs.root (strToComps fs p) = some d)
    (hreal : isRealDir d = true) (hwf : wfNode d = true)
    (hdel : contentDeletable d = true)
    (hfuel : spineLen d < fuel) :
    (noparentGuard p (cwdString fs) = true →
      contentRemove fuel fs p = some (Except.error (Err.unsafeTarget p))) ∧
    (noparentGuard p (cwdString fs) = false →
      contentRemove fuel fs p =
        some (Except.ok ({ fs with root := setNodeAt fs.root (strToComps fs p) Node.dnil },
          true))) := by
  constructor
  · intro hg
    unfold contentRemove
    rw [hdir, hg]
    simp
  · intro hg
    unfold contentRemove
    rw [hdir, hg]
    simp only [Bool.true_eq_false, reduceIte, Bool.false_eq_true, not_true_eq_false]
    simp only [hres]
    rw [contentLoop_deletable (cwdString fs) d p fuel hdel hwf hreal hfuel]

/-- Counterexample to claim C2: `/home/foo` is an existing directory, is not
the parent-reference name, and is not an ancestor of the working directory
`/home/foobar`, yet `content.remove('/home/foo')` raises the unsafe-target
error, because `'/home/foobar'.startswith('/home/foo')` is true. -/
theorem content_remove_guard_misfires_on_sibling :
    isdirStr exC2fs (pys "/home/foo") = true ∧
    pys "/home/foo" ≠ pys ".." ∧
    specStrictAncestor (strToComps exC2fs (pys "/home/foo")) exC2fs.cwd = false ∧
    contentRemove 5 exC2fs (pys "/home/foo") =
      some (Except.error (Err.unsafeTarget (pys "/home/foo"))) := by decide

/-- Witness for the amended C2 at `/home/foo` (guard true branch applies). -/
theorem content_remove_guard_is_string_test_witness :
    (isdirStr exC2fs (pys "/home/foo") = true ∧
     resolve exC2fs.root (strToComps exC2fs (pys "/home/foo")) = some Node.dnil ∧
     isRealDir Node.dnil = true ∧ wfNode Node.dnil = true ∧
     contentDeletable Node.dnil = true ∧ spineLen Node.dnil < 5) ∧
    ((noparentGuard (pys "/home/foo") (cwdString exC2fs) = true →
       contentRemove 5 exC2fs (pys "/home/foo") =
         some (Except.error (Err.unsafeTarget (pys "/home/foo")))) ∧
     (noparentGuard (pys "/home/foo") (cwdString exC2fs) = false →
       contentRemove 5 exC2fs (pys "/home/foo") =
         some (Except.ok
           ({ exC2fs with
              root := setNodeAt exC2fs.root (strToComps exC2fs (pys "/home/foo")) Node.dnil },
            true)))) :=
  ⟨⟨by decide, by decide, by decide, by decide, by decide, by decide⟩,
   content_remove_guard_is_string_test 5 exC2fs (pys "/home/foo") Node.dnil
     (by decide) (by decide) (by decide) (by decide) (by decide) (by decide)⟩

/-- Claim C6 as amended: for every existing real directory target that
passes the code's string guard (the path string is not `..` and the
`getcwd()` string does not both start with it and exceed it — rather than
"is not a strict ancestor", which the code does not test), and all of whose
content deletes cleanly, `content.remove` deletes every direct child
(files, dot-files and subdirectories recursively), leaves the target
existing and empty, and returns true. -/
theorem content_purge_empties_directory (fuel : Nat) (fs : Fs) (p : PyStr) (d : Node)
    (hdir : isdirStr fs p = true)
    (hres : resolve fs.root (strToComps fs p) = some d)
    (hreal : isRealDir d = true) (hwf : wfNode d = true)
    (hguard : noparentGuard p (cwdString fs) = false)
    (hdel : contentDeletable d = true)
    (hfuel : spineLen d < fuel) :
    contentRemove fuel fs p =
      some (Except.ok ({ fs with root := setNodeAt fs.root (strToComps fs p) Node.dnil },
        true)) ∧
    resolve (setNodeAt fs.root (strToComps fs p) Node.dnil) (strToComps fs p) =
      some Node.dnil := by
  refine ⟨?_, resolve_setNodeAt _ _ _ _ hres⟩
  unfold contentRemove
  rw [hdir, hguard]
  simp only [Bool.true_eq_false, reduceIte, Bool.false_eq_true, not_true_eq_false]
  simp only [hres]
  rw [contentLoop_deletable (cwdString fs) d p fuel hdel hwf hreal hfuel]

/-- Witness for the amended C6: purging `/D` containing `a`, `.b` and
`sub/inner` leaves `/D` existing and empty with result true. -/
theorem content_purge_empties_directory_witness :
    (isdirStr exC6fs (pys "/D") = true ∧
     resolve exC6fs.root (strToComps exC6fs (pys "/D")) = some exC6node ∧
     isRealDir exC6node = true ∧ wfNode exC6node = true ∧
     noparentGuard (pys "/D") (cwdString exC6fs) = false ∧
     contentDeletable exC6node = true ∧ spineLen exC6node < 4) ∧
    (contentRemove 4 exC6fs (pys "/D") =
       some (Except.ok
         ({ exC6fs with root := setNodeAt exC6fs.root (strToComps exC6fs (pys "/D")) Node.dnil },
          true)) ∧
     resolve (setNodeAt exC6fs.root (strToComps exC6fs (pys "/D")) Node.dnil)
         (strToComps exC6fs (pys "/D")) = some Node.dnil) :=
  ⟨⟨by decide, by decide, by decide, by decide, by decide, by decide, by decide⟩,
   content_purge_empties_directory 4 exC6fs (pys "/D") exC6node
     (by decide) (by decide) (by decide) (by decide) (by decide) (by decide) (by decide)⟩

/-- Counterexample to claim C6: `/d/ab` is an existing directory, not the
parent reference, not an ancestor of the working directory `/d/abc`, and its
single file `f` deletes cleanly — all the claim's hypotheses hold — yet the
purge does not proceed: the string-prefix guard raises the unsafe-target
error. -/
theorem content_purge_misses_sibling_prefix :
    isdirStr exC6sibfs (pys "/d/ab") = true ∧
    pys "/d/ab" ≠ pys ".." ∧
    specStrictAncestor (strToComps exC6sibfs (pys "/d/ab")) exC6sibfs.cwd = false ∧
    resolve exC6sibfs.root (strToComps exC6sibfs (pys "/d/ab")) =
      some (Node.dcons (pys "f") (Node.file true) Node.dnil) ∧
    contentDeletable (Node.dcons (pys "f") (Node.file true) Node.dnil) = true ∧
    contentRemove 5 exC6sibfs (pys "/d/ab") =
      some (Except.error (Err.unsafeTarget (pys "/d/ab"))) := by decide

/-- Claim C3: for every pattern with a literal, wildcard-free existing
directory part and a wildcard final segment, `remove` never raises; the
aggregate result is true exactly when every matched file-like entry (the
attempted deletions) deletes cleanly — true in particular when nothing
matches — and every matched deletable file is removed even when a sibling's
deletion fails. -/
theorem remove_best_effort_aggregate (fs : Fs) (cs : List PyStr) (bn : PyStr) (d : Node)
    (hwf : wfNode fs.root = true) (hne : cs ≠ []) (hclean : cleanComps cs = true)
    (hres : resolve fs.root cs = some d) (hreal : isRealDir d = true)
    (hbns : '/' ∉ bn) (hmagic : hasMagic bn = true) :
    remove fs (renderAbs cs ++ '/' :: bn) =
      Except.ok (⟨setNodeAt fs.root cs (spineDelete bn d), fs.cwd⟩, spineOk bn d) ∧
    (spineOk bn d = true ↔
      ∀ nm c, lookupChild d nm = some c → matchesPat bn nm = true →
        isFileNode c = true → leafRemovable c = true) ∧
    (selNames bn d = [] → spineDelete bn d = d ∧ spineOk bn d = true) ∧
    (∀ nm c, lookupChild d nm = some c → matchesPat bn nm = true →
      isFileNode c = true → leafRemovable c = true →
      lookupChild (spineDelete bn d) nm = none) := by
  have hwfd : wfNode d = true := wf_resolve cs fs.root d hwf hres
  exact ⟨remove_render_pattern fs cs bn d hwf hne hclean hres hreal hbns hmagic,
    spineOk_iff bn d hwfd, selNames_nil_spine bn d, lookup_spineDelete_none bn d hwfd⟩

/-- Witness for C3 at the spec's own partial-failure scenario: `/D` holds
three files matched by `*`, one of which resists deletion. -/
theorem remove_best_effort_aggregate_witness :
    (wfNode exC3fs.root = true ∧ [pys "D"] ≠ [] ∧ cleanComps [pys "D"] = true ∧
     resolve exC3fs.root [pys "D"] = some exC3d ∧ isRealDir exC3d = true ∧
     '/' ∉ pys "*" ∧ hasMagic (pys "*") = true) ∧
    (remove exC3fs (renderAbs [pys "D"] ++ '/' :: pys "*") =
       Except.ok (⟨setNodeAt exC3fs.root [pys "D"] (spineDelete (pys "*") exC3d),
         exC3fs.cwd⟩, spineOk (pys "*") exC3d) ∧
     (spineOk (pys "*") exC3d = true ↔
       ∀ nm c, lookupChild exC3d nm = some c → matchesPat (pys "*") nm = true →
         isFileNode c = true → leafRemovable c = true) ∧
     (selNames (pys "*") exC3d = [] →
       spineDelete (pys "*") exC3d = exC3d ∧ spineOk (pys "*") exC3d = true) ∧
     (∀ nm c, lookupChild exC3d nm = some c → matchesPat (pys "*") nm = true →
       isFileNode c = true → leafRemovable c = true →
       lookupChild (spineDelete (pys "*") exC3d) nm = none)) :=
  ⟨⟨by decide, by decide, by decide, by decide, by decide, by decide, by decide⟩,
   remove_best_effort_aggregate exC3fs [pys "D"] (pys "*") exC3d
     (by decide) (by decide) (by decide) (by decide) (by decide) (by decide) (by decide)⟩

/-- Counterexample to claim C7: in the working directory, `s` is a symlink
to a regular file and matches `*`; `remove('*')` deletes it (because
`os.path.isfile` follows symlinks) and still reports full success, while the
claim says every symlink match is silently skipped and not deleted. -/
theorem remove_deletes_symlink_to_file :
    islinkStr exC7fs (pys "s") = true ∧
    remove exC7fs (pys "*") = Except.ok (exC7after, true) ∧
    lexistsStr exC7after (pys "s") = false := by decide

/-- Claim C7 as amended: `remove` deletes exactly the matches that
`os.path.isfile` accepts — regular files and symlinks resolving to regular
files; matches that are directories, symlinks to directories, or broken
symlinks are left in place and do not affect the aggregate result (which is
true whenever no file-like entry matched). -/
theorem remove_file_matches_only (fs : Fs) (cs : List PyStr) (bn : PyStr) (d : Node)
    (hwf : wfNode fs.root = true) (hne : cs ≠ []) (hclean : cleanComps cs = true)
    (hres : resolve fs.root cs = some d) (hreal : isRealDir d = true)
    (hbns : '/' ∉ bn) (hmagic : hasMagic bn = true) :
    remove fs (renderAbs cs ++ '/' :: bn) =
      Except.ok (⟨setNodeAt fs.root cs (spineDelete bn d), fs.cwd⟩, spineOk bn d) ∧
    (∀ nm c, lookupChild d nm = some c → isFileNode c = false →
      lookupChild (spineDelete bn d) nm = some c) ∧
    (selNames bn d = [] → spineOk bn d = true) := by
  refine ⟨remove_render_pattern fs cs bn d hwf hne hclean hres hreal hbns hmagic,
    ?_, fun hs => (selNames_nil_spine bn d hs).2⟩
  intro nm c h hfc
  exact lookup_spineDelete_preserved bn d nm c h (by rw [hfc]; simp)

/-- Witness for the amended C7: `/E` holds a file, a subdirectory and a
broken symlink, all matched by `*`; only the file is deleted. -/
theorem remove_file_matches_only_witness :
    (wfNode exC7wfs.root = true ∧ [pys "E"] ≠ [] ∧ cleanComps [pys "E"] = true ∧
     resolve exC7wfs.root [pys "E"] = some exC7wd ∧ isRealDir exC7wd = true ∧
     '/' ∉ pys "*" ∧ hasMagic (pys "*") = true) ∧
    (remove exC7wfs (renderAbs [pys "E"] ++ '/' :: pys "*") =
       Except.ok (⟨setNodeAt exC7wfs.root [pys "E"] (spineDelete (pys "*") exC7wd),
         exC7wfs.cwd⟩, spineOk (pys "*") exC7wd) ∧
     (∀ nm c, lookupChild exC7wd nm = some c → isFileNode c = false →
       lookupChild (spineDelete (pys "*") exC7wd) nm = some c) ∧
     (selNames (pys "*") exC7wd = [] → spineOk (pys "*") exC7wd = true)) :=
  ⟨⟨by decide, by decide, by decide, by decide, by decide, by decide, by decide⟩,
   remove_file_matches_only exC7wfs [pys "E"] (pys "*") exC7wd
     (by decide) (by decide) (by decide) (by decide) (by decide) (by decide) (by decide)⟩

/-- Claim C5: `files.remove` on an existing directory runs the dot-wildcard
pass and then the plain-wildcard pass (the second runs regardless of the
first's result: the final state reflects both), returns the conjunction of
the two pass results, never deletes a non-file entry (in particular every
subdirectory survives with its content), and deletes every deletable plain
file child, dot-named or not. -/
theorem files_remove_spec (fs : Fs) (cs : List PyStr) (d : Node)
    (hwf : wfNode fs.root = true) (hne : cs ≠ []) (hclean : cleanComps cs = true)
    (hres : resolve fs.root cs = some d) (hreal : isRealDir d = true) :
    filesRemove fs (renderAbs cs) =
      Except.ok (⟨setNodeAt fs.root cs
          (spineDelete (pys "*") (spineDelete (pys ".*") d)), fs.cwd⟩,
        spineOk (pys "*") (spineDelete (pys ".*") d) && spineOk (pys ".*") d) ∧
    (∀ nm c, lookupChild d nm = some c → isFileNode c = false →
      lookupChild (spineDelete (pys "*") (spineDelete (pys ".*") d)) nm = some c) ∧
    (∀ nm, lookupChild d nm = some (Node.file true) →
      lookupChild (spineDelete (pys "*") (spineDelete (pys ".*") d)) nm = none) := by
  have hwfd : wfNode d = true := wf_resolve cs fs.root d hwf hres
  have hdir : isdirStr fs (renderAbs cs) = true := isdirStr_render fs cs d hclean hres hreal
  have hjoin1 : pyJoin (renderAbs cs) (pys ".*") = renderAbs cs ++ '/' :: pys ".*" :=
    pyJoin_render cs (pys ".*") hne hclean (by decide)
  have hjoin2 : pyJoin (renderAbs cs) (pys "*") = renderAbs cs ++ '/' :: pys "*" :=
    pyJoin_render cs (pys "*") hne hclean (by decide)
  have hp1 := remove_render_pattern fs cs (pys ".*") d hwf hne hclean hres hreal
    (by decide) (by decide)
  have hwf1 : wfNode (setNodeAt fs.root cs (spineDelete (pys ".*") d)) = true :=
    wf_setNodeAt cs _ (wf_spineDelete (pys ".*") d hwfd) fs.root hwf
  have hres1 : resolve (setNodeAt fs.root cs (spineDelete (pys ".*") d)) cs =
      some (spineDelete (pys ".*") d) := resolve_setNodeAt cs fs.root d _ hres
  have hreal1 : isRealDir (spineDelete (pys ".*") d) = true :=
    isRealDir_spineDelete (pys ".*") d hwfd hreal
  have hp2 := remove_render_pattern
    ⟨setNodeAt fs.root cs (spineDelete (pys ".*") d), fs.cwd⟩ cs (pys "*")
    (spineDelete (pys ".*") d) hwf1 hne hclean hres1 hreal1 (by decide) (by decide)
  refine ⟨?_, ?_, ?_⟩
  · unfold filesRemove
    rw [if_neg (by rw [hdir]; simp)]
    rw [hjoin1, hp1, hjoin2]
    show (match remove (⟨setNodeAt fs.root cs (spineDelete (pys ".*") d), fs.cwd⟩ : Fs)
            (renderAbs cs ++ '/' :: pys "*") with
          | Except.error e => Except.error e
          | Except.ok (fs2, ok2) => Except.ok (fs2, ok2 && spineOk (pys ".*") d)) = _
    rw [hp2]
    show Except.ok
        ((⟨setNodeAt (setNodeAt fs.root cs (spineDelete (pys ".*") d)) cs
            (spineDelete (pys "*") (spineDelete (pys ".*") d)), fs.cwd⟩ : Fs),
          spineOk (pys "*") (spineDelete (pys ".*") d) && spineOk (pys ".*") d) = _
    rw [setNodeAt_setNodeAt]
  · intro nm c h hfc
    exact lookup_spineDelete_preserved (pys "*") (spineDelete (pys ".*") d) nm c
      (lookup_spineDelete_preserved (pys ".*") d nm c h (by rw [hfc]; simp))
      (by rw [hfc]; simp)
  · intro nm h
    by_cases hdot : nm.head? = some '.'
    · have h1 : lookupChild (spineDelete (pys ".*") d) nm = none :=
        lookup_spineDelete_none (pys ".*") d hwfd nm (Node.file true) h
          ((matchesPat_dotstar nm).mpr hdot) rfl rfl
      exact lookup_spineDelete_of_none (pys "*") _ nm h1
    · have hm1 : matchesPat (pys ".*") nm = false := by
        rw [Bool.eq_false_iff]
        intro hcon
        exact hdot ((matchesPat_dotstar nm).mp hcon)
      have h1 : lookupChild (spineDelete (pys ".*") d) nm = some (Node.file true) :=
        lookup_spineDelete_preserved (pys ".*") d nm (Node.file true) h (by rw [hm1]; simp)
      exact lookup_spineDelete_none (pys "*") (spineDelete (pys ".*") d)
        (wf_spineDelete (pys ".*") d hwfd) nm (Node.file true) h1
        ((matchesPat_star nm).mpr hdot) rfl rfl

/-- Witness for C5 at the spec's scenario: `/D` holds `a`, `.b` and `sub/`;
after `files.remove('/D')` the files are gone and `sub/` survives. -/
theorem files_remove_spec_witness :
    (wfNode exC5fs.root = true ∧ [pys "D"] ≠ [] ∧ cleanComps [pys "D"] = true ∧
     resolve exC5fs.root [pys "D"] = some exC5d ∧ isRealDir exC5d = true) ∧
    (filesRemove exC5fs (renderAbs [pys "D"]) =
       Except.ok (⟨setNodeAt exC5fs.root [pys "D"]
           (spineDelete (pys "*") (spineDelete (pys ".*") exC5d)), exC5fs.cwd⟩,
         spineOk (pys "*") (spineDelete (pys ".*") exC5d) && spineOk (pys ".*") exC5d) ∧
     (∀ nm c, lookupChild exC5d nm = some c → isFileNode c = false →
       lookupChild (spineDelete (pys "*") (spineDelete (pys ".*") exC5d)) nm = some c) ∧
     (∀ nm, lookupChild exC5d nm = some (Node.file true) →
       lookupChild (spineDelete (pys "*") (spineDelete (pys ".*") exC5d)) nm = none)) :=
  ⟨⟨by decide, by decide, by decide, by decide, by decide⟩,
   files_remove_spec exC5fs [pys "D"] exC5d
     (by decide) (by decide) (by decide) (by decide) (by decide)⟩

/-- Witness for the amended C8 at the concrete directory `d.e`. -/
theorem justpath_family_on_directory_witness :
    isdirStr exC8fs (pys "d.e") = true ∧
    (justpath exC8fs (pys "d.e") (some true) = pyAbspath exC8fs (pys "d.e") ∧
     justpath exC8fs (pys "d.e") (some false) = pyNormpath (pys "d.e") ∧
     justname exC8fs (pys "d.e") = [] ∧
     (juststem exC8fs (pys "d.e") = [] ↔
       (isdirStr exC8fs (pySplitext (pys "d.e")).1 = true ∨
        pyBasename (pySplitext (pys "d.e")).1 = [])) ∧
     (justext (pys "d.e") = [] ↔ (pySplitext (pys "d.e")).2.length ≤ 1)) :=
  ⟨by decide, justpath_family_on_directory exC8fs (pys "d.e") (by decide)⟩

end osglob
